import Mathlib

/-! Windowed bin packing: `internal/utils.go`

A shallow embedding of the `Bin` accumulator, of `SlicePacker.Pack` (first-fit packing with a
bounded window of open bins and two eviction policies) and of `SlicePacker.PackEnd`, followed by
the properties proved about them.

Conventions of the embedding.

* A Go slice is a `List`.  The slices held by the packer (`bins`, each bin's `items`) are never
  aliased: every bin owns the backing array of its `items`, so in-place updates are modelled by
  replacing the list.
* `int64` values are integers; the arithmetic of `Bin.CanAdd` and `Bin.Add` goes through a
  function `wrap : Int → Int` applied to every sum.  `wrapInt64` is Go's two's-complement
  wrap-around; `id` is arithmetic on exact integers.
* A run-time panic (index out of range, `slices.MaxFunc` on an empty slice) is `Fault.panic`.
* The generator handed to `slices.Collect` is modelled with an explicit consumer: `cont ys` is the
  answer of `yield` once the consumer has received the bins `ys`.  `slices.Collect` is the
  consumer that always answers `true`.
* `PackState.sizes`, `PackState.weighed` and `PackState.evicted` are ghost fields: they record
  the length of the open-bin list after each append and each removal, the items `weightFunc`
  was applied to, and the bins returned by `removeBin`.
-/

namespace internal

/-- The result of an `int64` addition in Go: the integer `x` reduced to the range `[-2^63, 2^63)`. -/
def wrapInt64 (x : Int) : Int := (x + 2 ^ 63) % 2 ^ 64 - 2 ^ 63

/-- The two ways a run of the model can fail to return a value. -/
inductive Fault where
  | panic
  | outOfFuel
deriving Repr, DecidableEq

/-- Source: `type Bin[T any] struct { binWeight int64; targetWeight int64; items []T }`. -/
structure Bin (T : Type) where
  binWeight : Int
  targetWeight : Int
  items : List T
deriving Repr, DecidableEq

/-- Source: `func (b *Bin[T]) Weight() int64 { return b.binWeight }`. -/
def Bin.Weight {T : Type} (b : Bin T) : Int := b.binWeight

/-- Source: `func (b *Bin[T]) CanAdd(weight int64) bool`, which returns
`b.binWeight+weight <= b.targetWeight`. -/
def Bin.CanAdd {T : Type} (wrap : Int → Int) (b : Bin T) (weight : Int) : Bool :=
  decide (wrap (b.binWeight + weight) ≤ b.targetWeight)

/-- Source: `func (b *Bin[T]) Add(item T, weight int64)`: add to the running total, append the item. -/
def Bin.Add {T : Type} (wrap : Int → Int) (b : Bin T) (item : T) (weight : Int) : Bin T :=
  { b with binWeight := wrap (b.binWeight + weight), items := b.items ++ [item] }

/-- Source: `type SlicePacker[T any] struct` with fields `TargetWeight int64`,
`Lookback int`, `LargestBinFirst bool`. -/
structure SlicePacker where
  TargetWeight : Int
  Lookback : Int
  LargestBinFirst : Bool
deriving Repr, DecidableEq

/-- Library `cmp.Compare` on `int64`: `-1`, `0` or `+1`. -/
def cmpCompare (a b : Int) : Int :=
  if a < b then -1 else if a > b then 1 else 0

/-- Library `slices.MaxFunc`: panics on an empty slice; otherwise scans from `x[0]` and replaces the
running maximum only by a strictly greater element, so the first maximal element is returned. -/
def MaxFunc {E : Type} (x : List E) (cmp : E → E → Int) : Except Fault E :=
  match x with
  | [] => .error .panic
  | x0 :: rest => .ok (rest.foldl (fun m e => if cmp e m > 0 then e else m) x0)

/-- Scan of `slices.IndexFunc` from position `i`. -/
def indexFuncFrom {E : Type} (f : E → Bool) : List E → Nat → Int
  | [], _ => -1
  | e :: es, i => if f e then (i : Int) else indexFuncFrom f es (i + 1)

/-- Library `slices.IndexFunc`: the first index whose element satisfies `f`, or `-1`. -/
def IndexFunc {E : Type} (s : List E) (f : E → Bool) : Int :=
  indexFuncFrom f s 0

/-- Library `slices.Delete(s, i, j)`: panics unless `0 <= i <= j <= len(s)`; removes `s[i:j]`. -/
def Delete {E : Type} (s : List E) (i j : Int) : Except Fault (List E) :=
  if 0 ≤ i ∧ i ≤ j ∧ j ≤ (s.length : Int) then
    .ok (s.take i.toNat ++ s.drop j.toNat)
  else .error .panic

/-- The closure `findBin`: the position of the first open bin that can take `weight`
(the pointer `&bins[i]`), or `none` for `nil`. -/
def findBin {T : Type} (wrap : Int → Int) : List (Bin T) → Int → Option Nat
  | [], _ => none
  | b :: bs, weight =>
    if b.CanAdd wrap weight then some 0 else (findBin wrap bs weight).map (· + 1)

/-- A write through the pointer `&bins[i]`: the bin at position `i` is replaced by `f` of it. -/
def updateBin {T : Type} (f : Bin T → Bin T) : Nat → List (Bin T) → List (Bin T)
  | _, [] => []
  | 0, b :: bs => f b :: bs
  | i + 1, b :: bs => b :: updateBin f i bs

/-- The closure `removeBin`: the evicted bin and the open-bin list that remains. -/
def removeBin {T : Type} (s : SlicePacker) (bins : List (Bin T)) :
    Except Fault (Bin T × List (Bin T)) :=
  if s.LargestBinFirst then
    match MaxFunc bins (fun a b => cmpCompare a.Weight b.Weight) with
    | .error e => .error e
    | .ok maxBin =>
      let i := IndexFunc bins (fun e => decide (e.Weight = maxBin.Weight))
      match Delete bins i (i + 1) with
      | .error e => .error e
      | .ok bins' => .ok (maxBin, bins')
  else
    match bins with
    | [] => .error .panic
    | out :: rest => .ok (out, rest)

/-- The state of one run of the generator inside `Pack`. -/
structure PackState (T : Type) where
  bins : List (Bin T)
  yielded : List (List T)
  sizes : List Nat
  weighed : List T
  evicted : List (Bin T)
deriving Repr, DecidableEq

/-- The state at entry: `bins := make([]Bin[T], 0)`, nothing yielded. -/
def PackState.init {T : Type} : PackState T :=
  { bins := [], yielded := [], sizes := [], weighed := [], evicted := [] }

/-- The statement `if !yield(removeBin().items) { return }`: a bin is removed from the open-bin
list and handed to the consumer; the flag is the consumer's answer (`false`: return). -/
def evict {T : Type} (s : SlicePacker) (cont : List (List T) → Bool) (st : PackState T) :
    Except Fault (PackState T × Bool) :=
  match removeBin s st.bins with
  | .error e => .error e
  | .ok (b, bins') =>
    let ys := st.yielded ++ [b.items]
    .ok ({ st with bins := bins', sizes := st.sizes ++ [bins'.length], yielded := ys,
                   evicted := st.evicted ++ [b] }, cont ys)

/-- The body of `for _, item := range items`; the flag is `false` when the generator returned. -/
def packItem {T : Type} (s : SlicePacker) (wrap : Int → Int) (weightFunc : T → Int)
    (cont : List (List T) → Bool) (item : T) (st : PackState T) :
    Except Fault (PackState T × Bool) :=
  let w := weightFunc item
  let st := { st with weighed := st.weighed ++ [item] }
  match findBin wrap st.bins w with
  | some i => .ok ({ st with bins := updateBin (fun b => b.Add wrap item w) i st.bins }, true)
  | none =>
    let bin := Bin.Add wrap { binWeight := 0, targetWeight := s.TargetWeight, items := [] } item w
    let bins := st.bins ++ [bin]
    let st := { st with bins := bins, sizes := st.sizes ++ [bins.length] }
    if (bins.length : Int) > s.Lookback then evict s cont st else .ok (st, true)

/-- The loop `for _, item := range items { ... }`. -/
def packItems {T : Type} (s : SlicePacker) (wrap : Int → Int) (weightFunc : T → Int)
    (cont : List (List T) → Bool) : List T → PackState T → Except Fault (PackState T × Bool)
  | [], st => .ok (st, true)
  | item :: rest, st =>
    match packItem s wrap weightFunc cont item st with
    | .error e => .error e
    | .ok (st', true) => packItems s wrap weightFunc cont rest st'
    | .ok (st', false) => .ok (st', false)

/-- The loop `for len(bins) > 0 { if !yield(removeBin().items) { return } }`, with a bound on
the number of iterations. -/
def drainBins {T : Type} (s : SlicePacker) (cont : List (List T) → Bool) :
    Nat → PackState T → Except Fault (PackState T × Bool)
  | 0, st => if st.bins.length > 0 then .error .outOfFuel else .ok (st, true)
  | fuel + 1, st =>
    if st.bins.length > 0 then
      match evict s cont st with
      | .error e => .error e
      | .ok (st', true) => drainBins s cont fuel st'
      | .ok (st', false) => .ok (st', false)
    else .ok (st, true)

/-- The generator passed to `slices.Collect`, run against the consumer `cont`: the item loop,
then the drain loop unless the consumer has stopped.  Every iteration of the drain loop removes
one bin, so `len(bins)` iterations are allowed. -/
def packSeq {T : Type} (s : SlicePacker) (wrap : Int → Int) (weightFunc : T → Int)
    (cont : List (List T) → Bool) (items : List T) : Except Fault (PackState T) :=
  match packItems s wrap weightFunc cont items PackState.init with
  | .error e => .error e
  | .ok (st, false) => .ok st
  | .ok (st, true) =>
    match drainBins s cont st.bins.length st with
    | .error e => .error e
    | .ok (st', _) => .ok st'

/-- The consumer of `slices.Collect`: it appends and always asks for more. -/
def collectAll {T : Type} : List (List T) → Bool := fun _ => true

/-- Source: `func (s *SlicePacker[T]) Pack(items []T, weightFunc func(T) int64) [][]T`. -/
def Pack {T : Type} (s : SlicePacker) (wrap : Int → Int) (items : List T)
    (weightFunc : T → Int) : Except Fault (List (List T)) :=
  match packSeq s wrap weightFunc collectAll items with
  | .error e => .error e
  | .ok st => .ok st.yielded

/-- Source: `func (s *SlicePacker[T]) PackEnd(items []T, weightFunc func(T) int64) [][]T`.
The first component is the returned `result`; the second is the caller's slice `items` as the
call leaves it (`slices.Reverse(items)` works in place on the caller's backing array). -/
def PackEnd {T : Type} (s : SlicePacker) (wrap : Int → Int) (items : List T)
    (weightFunc : T → Int) : Except Fault (List (List T) × List T) :=
  let items := items.reverse
  match Pack s wrap items weightFunc with
  | .error e => .error e
  | .ok packed =>
    let packed := packed.reverse
    let result := packed.foldl (fun result items => result ++ [items.reverse]) []
    .ok (result, items)

/-- The words of the specification for `PackEnd`: reverse the input, run `Pack`, reverse the
sequence of bins and the items inside each bin. -/
def PackEndSpec {T : Type} (s : SlicePacker) (wrap : Int → Int) (items : List T)
    (weightFunc : T → Int) : Except Fault (List (List T)) :=
  match Pack s wrap items.reverse weightFunc with
  | .error e => .error e
  | .ok packed => .ok ((packed.map List.reverse).reverse)

/-- Source: `func Difference(a, b []string) []string`.  The map `m` of type
`map[string]bool` is a function on keys; a key that was never assigned reads as `false`. -/
def Difference (a b : List String) : List String :=
  let m : String → Bool :=
    b.foldl (fun m item => fun k => if k = item then true else m k) (fun _ => false)
  a.foldl (fun diff item => if !m item then diff ++ [item] else diff) []

/-- A call of one of the three methods of `Bin`. -/
inductive BinCall (T : Type) where
  | add (item : T) (weight : Int)
  | weight
  | canAdd (weight : Int)

/-- The receiver after a method call: `Add` assigns to `binWeight` and `items`; `Weight` and
`CanAdd` only read the fields. -/
def Bin.call {T : Type} (wrap : Int → Int) (b : Bin T) : BinCall T → Bin T
  | .add item weight => b.Add wrap item weight
  | .weight => b
  | .canAdd _ => b

/-- The weights passed to `Add` in a sequence of calls, in call order. -/
def BinCall.addedWeights {T : Type} : List (BinCall T) → List Int
  | [] => []
  | .add _ w :: cs => w :: BinCall.addedWeights cs
  | .weight :: cs => BinCall.addedWeights cs
  | .canAdd _ :: cs => BinCall.addedWeights cs

/-- The items passed to `Add` in a sequence of calls, in call order. -/
def BinCall.addedItems {T : Type} : List (BinCall T) → List T
  | [] => []
  | .add x _ :: cs => x :: BinCall.addedItems cs
  | .weight :: cs => BinCall.addedItems cs
  | .canAdd _ :: cs => BinCall.addedItems cs

/-- No sum the packer can form over the input overflows: on every subsequence of the input,
`wrap` leaves the exact sum of the weights unchanged. -/
def NoOverflow {T : Type} (wrap : Int → Int) (weightFunc : T → Int) (items : List T) : Prop :=
  ∀ sub : List T, sub.Sublist items → wrap (sub.map weightFunc).sum = (sub.map weightFunc).sum

/-- A bin in step with its items: it was created with capacity `target`, and its running
total is the exact sum of the weights of its items. -/
def Bin.Exact {T : Type} (weightFunc : T → Int) (target : Int) (b : Bin T) : Prop :=
  b.targetWeight = target ∧ b.binWeight = (b.items.map weightFunc).sum

/-- The state of the generator is in step with the items consumed: every open bin is in step
with its items, which are a subsequence of the items consumed; every evicted bin was in step
with its items when it left; and the bins handed to the consumer are the items of the evicted
bins. -/
def ExactInv {T : Type} (weightFunc : T → Int) (target : Int) (done : List T)
    (st : PackState T) : Prop :=
  (∀ b ∈ st.bins, b.Exact weightFunc target ∧ b.items.Sublist done) ∧
  (∀ b ∈ st.evicted, b.Exact weightFunc target) ∧
  st.yielded = st.evicted.map Bin.items

end internal

namespace internal

/-! ## The closures `findBin` and `removeBin` -/

/-- When `findBin` answers `some i`, position `i` holds the first bin that can take the weight,
and a write through the pointer changes that bin only. -/
theorem findBin_eq_some {T : Type} (wrap : Int → Int) (f : Bin T → Bin T) (w : Int) :
    ∀ (bins : List (Bin T)) (i : Nat), findBin wrap bins w = some i →
      ∃ pre b post, bins = pre ++ b :: post ∧ pre.length = i ∧ b.CanAdd wrap w = true ∧
        (∀ e ∈ pre, e.CanAdd wrap w = false) ∧ updateBin f i bins = pre ++ f b :: post := by
  intro bins
  induction bins with
  | nil => intro i h; simp [findBin] at h
  | cons b bs ih =>
    intro i h
    by_cases hb : b.CanAdd wrap w = true
    · simp only [findBin, hb, if_true, Option.some.injEq] at h
      subst h
      exact ⟨[], b, bs, rfl, rfl, hb, by simp, rfl⟩
    · simp only [findBin, hb, Bool.false_eq_true, if_false, Option.map_eq_some'] at h
      obtain ⟨j, hj, rfl⟩ := h
      obtain ⟨pre, c, post, hsplit, hlen, hc, hpre, hupd⟩ := ih j hj
      refine ⟨b :: pre, c, post, by simp [hsplit], by simp [hlen], hc, ?_, ?_⟩
      · intro e he
        rcases List.mem_cons.mp he with rfl | he
        · simpa using hb
        · exact hpre e he
      · simp [updateBin, hupd]

/-- When `findBin` answers `nil`, no open bin can take the weight. -/
theorem findBin_eq_none {T : Type} (wrap : Int → Int) (w : Int) :
    ∀ (bins : List (Bin T)), findBin wrap bins w = none →
      ∀ e ∈ bins, e.CanAdd wrap w = false := by
  intro bins
  induction bins with
  | nil => intro _ e he; simp at he
  | cons b bs ih =>
    intro h e he
    by_cases hb : b.CanAdd wrap w = true
    · simp [findBin, hb] at h
    · simp only [findBin, hb, Bool.false_eq_true, if_false, Option.map_eq_none'] at h
      rcases List.mem_cons.mp he with rfl | he
      · simpa using hb
      · exact ih h e he

/-- The scan of `slices.MaxFunc` keeps the first element of greatest weight. -/
theorem maxFold_split {T : Type} :
    ∀ (l pre : List (Bin T)) (m : Bin T) (post : List (Bin T)),
      (∀ e ∈ pre, e.Weight < m.Weight) → (∀ e ∈ post, e.Weight ≤ m.Weight) →
      ∃ pre' m' post', pre ++ m :: post ++ l = pre' ++ m' :: post' ∧
        l.foldl (fun m e => if cmpCompare e.Weight m.Weight > 0 then e else m) m = m' ∧
        (∀ e ∈ pre', e.Weight < m'.Weight) ∧ (∀ e ∈ post', e.Weight ≤ m'.Weight) := by
  intro l
  induction l with
  | nil =>
    intro pre m post hpre hpost
    exact ⟨pre, m, post, by simp, rfl, hpre, hpost⟩
  | cons e l ih =>
    intro pre m post hpre hpost
    by_cases he : m.Weight < e.Weight
    · have hc : cmpCompare e.Weight m.Weight > 0 := by
        unfold cmpCompare
        rw [if_neg (by omega), if_pos (by omega)]
        decide
      obtain ⟨pre', m', post', hsplit, hfold, h1, h2⟩ :=
        ih (pre ++ m :: post) e [] (by
          intro x hx
          rcases List.mem_append.mp hx with hx | hx
          · exact lt_trans (hpre x hx) he
          · rcases List.mem_cons.mp hx with rfl | hx
            · exact he
            · exact lt_of_le_of_lt (hpost x hx) he) (by simp)
      refine ⟨pre', m', post', ?_, ?_, h1, h2⟩
      · rw [← hsplit]; simp
      · simp only [List.foldl_cons, hc, if_true]; exact hfold
    · have hc : ¬ cmpCompare e.Weight m.Weight > 0 := by
        unfold cmpCompare
        by_cases hlt : e.Weight < m.Weight
        · rw [if_pos hlt]; decide
        · rw [if_neg hlt, if_neg (by omega)]; decide
      obtain ⟨pre', m', post', hsplit, hfold, h1, h2⟩ :=
        ih pre m (post ++ [e]) hpre (by
          intro x hx
          rcases List.mem_append.mp hx with hx | hx
          · exact hpost x hx
          · simp only [List.mem_singleton] at hx
            subst hx; omega)
      refine ⟨pre', m', post', ?_, ?_, h1, h2⟩
      · rw [← hsplit]; simp
      · simp only [List.foldl_cons, hc, if_false]; exact hfold

/-- The scan of `slices.IndexFunc` stops at the first element that satisfies the test. -/
theorem indexFuncFrom_split {E : Type} (f : E → Bool) :
    ∀ (pre : List E) (m : E) (post : List E) (k : Nat),
      (∀ e ∈ pre, f e = false) → f m = true →
      indexFuncFrom f (pre ++ m :: post) k = ((k + pre.length : Nat) : Int) := by
  intro pre
  induction pre with
  | nil => intro m post k _ hm; simp [indexFuncFrom, hm]
  | cons e pre ih =>
    intro m post k hpre hm
    have he : f e = false := hpre e (by simp)
    have hstep : indexFuncFrom f (e :: pre ++ m :: post) k
        = indexFuncFrom f (pre ++ m :: post) (k + 1) := by
      simp [indexFuncFrom, he]
    rw [hstep, ih m post (k + 1) (fun x hx => hpre x (by simp [hx])) hm]
    simp only [List.length_cons]
    congr 1
    omega

/-- Deleting the one position after `pre` removes exactly the element there. -/
theorem Delete_split {E : Type} (pre : List E) (m : E) (post : List E) :
    Delete (pre ++ m :: post) (pre.length : Int) ((pre.length : Int) + 1) = .ok (pre ++ post) := by
  unfold Delete
  have hcond : 0 ≤ (pre.length : Int) ∧ (pre.length : Int) ≤ (pre.length : Int) + 1 ∧
      (pre.length : Int) + 1 ≤ ((pre ++ m :: post).length : Int) := by
    refine ⟨by omega, by omega, ?_⟩
    simp only [List.length_append, List.length_cons]
    push_cast
    omega
  rw [if_pos hcond]
  have h1 : ((pre.length : Int) + 1).toNat = pre.length + 1 := by omega
  rw [Int.toNat_ofNat, h1]
  congr 1
  rw [List.take_left' rfl]
  have : pre ++ m :: post = (pre ++ [m]) ++ post := by simp
  rw [this, List.drop_left' (by simp)]

/-- On an empty open-bin list `removeBin` panics, under either policy. -/
theorem removeBin_nil {T : Type} (s : SlicePacker) :
    removeBin s ([] : List (Bin T)) = .error .panic := by
  unfold removeBin
  cases s.LargestBinFirst <;> simp [MaxFunc]

/-- On a non-empty open-bin list `removeBin` returns one of the bins and leaves the others in
their order.  Under FIFO it is the head; under largest-first it is the first bin of greatest
weight. -/
theorem removeBin_split {T : Type} (s : SlicePacker) (bins : List (Bin T)) (hne : bins ≠ []) :
    ∃ pre b post, bins = pre ++ b :: post ∧ removeBin s bins = .ok (b, pre ++ post) ∧
      (s.LargestBinFirst = false → pre = []) ∧
      (s.LargestBinFirst = true →
        (∀ e ∈ pre, e.Weight < b.Weight) ∧ (∀ e ∈ post, e.Weight ≤ b.Weight)) := by
  cases bins with
  | nil => exact absurd rfl hne
  | cons x0 rest =>
    by_cases hpol : s.LargestBinFirst = true
    · obtain ⟨pre, m, post, hsplit, hfold, h1, h2⟩ :=
        maxFold_split rest [] x0 [] (by simp) (by simp)
      replace hsplit : x0 :: rest = pre ++ m :: post := by simpa using hsplit
      refine ⟨pre, m, post, hsplit, ?_, by simp [hpol], fun _ => ⟨h1, h2⟩⟩
      have hidx : IndexFunc (pre ++ m :: post) (fun e => decide (e.Weight = m.Weight))
          = (pre.length : Int) := by
        unfold IndexFunc
        rw [indexFuncFrom_split _ pre m post 0
          (fun e he => by simpa using ne_of_lt (h1 e he)) (by simp)]
        simp
      unfold removeBin
      simp only [hpol, if_true, MaxFunc, hfold]
      rw [hsplit, hidx, Delete_split]
    · have hpol' : s.LargestBinFirst = false := by simpa using hpol
      refine ⟨[], x0, rest, rfl, ?_, fun _ => rfl, fun h => absurd h hpol⟩
      unfold removeBin
      simp [hpol']

/-! ## One step of the generator -/

/-- The statement `if !yield(removeBin().items) { return }` on a non-empty open-bin list:
one bin leaves the list and is handed to the consumer. -/
theorem evict_split {T : Type} (s : SlicePacker) (cont : List (List T) → Bool)
    (st : PackState T) (hne : st.bins ≠ []) :
    ∃ pre b post, st.bins = pre ++ b :: post ∧
      (s.LargestBinFirst = false → pre = []) ∧
      (s.LargestBinFirst = true →
        (∀ e ∈ pre, e.Weight < b.Weight) ∧ (∀ e ∈ post, e.Weight ≤ b.Weight)) ∧
      evict s cont st =
        .ok ({ bins := pre ++ post, yielded := st.yielded ++ [b.items],
               sizes := st.sizes ++ [(pre ++ post).length], weighed := st.weighed,
               evicted := st.evicted ++ [b] },
             cont (st.yielded ++ [b.items])) := by
  obtain ⟨pre, b, post, hsplit, hrem, hfifo, hmax⟩ := removeBin_split s st.bins hne
  refine ⟨pre, b, post, hsplit, hfifo, hmax, ?_⟩
  unfold evict
  rw [hrem]

/-- The bin created for an item that fits nowhere: `Bin[T]{targetWeight: s.TargetWeight}`
after `Add(item, w)`. -/
theorem newBin_eq {T : Type} (s : SlicePacker) (wrap : Int → Int) (item : T) (w : Int) :
    Bin.Add wrap { binWeight := 0, targetWeight := s.TargetWeight, items := [] } item w
      = { binWeight := wrap (0 + w), targetWeight := s.TargetWeight, items := [item] } := by
  simp [Bin.Add]

/-- The three ways the body of the item loop can run: the item joins the first open bin that
can take it; or a bin is opened for it and the window is not yet over `Lookback`; or a bin is
opened and one bin is evicted at once. -/
theorem packItem_cases {T : Type} (s : SlicePacker) (wrap : Int → Int) (weightFunc : T → Int)
    (cont : List (List T) → Bool) (item : T) (st : PackState T) :
    (∃ pre b post, st.bins = pre ++ b :: post ∧ b.CanAdd wrap (weightFunc item) = true ∧
        (∀ e ∈ pre, e.CanAdd wrap (weightFunc item) = false) ∧
        packItem s wrap weightFunc cont item st =
          .ok ({ bins := pre ++ b.Add wrap item (weightFunc item) :: post,
                 yielded := st.yielded, sizes := st.sizes,
                 weighed := st.weighed ++ [item],
                 evicted := st.evicted }, true)) ∨
    ((∀ e ∈ st.bins, e.CanAdd wrap (weightFunc item) = false) ∧
        ¬ (((st.bins.length + 1 : Nat) : Int) > s.Lookback) ∧
        packItem s wrap weightFunc cont item st =
          .ok ({ bins := st.bins ++
                   [{ binWeight := wrap (0 + weightFunc item),
                      targetWeight := s.TargetWeight, items := [item] }],
                 yielded := st.yielded, sizes := st.sizes ++ [st.bins.length + 1],
                 weighed := st.weighed ++ [item],
                 evicted := st.evicted }, true)) ∨
    ((∀ e ∈ st.bins, e.CanAdd wrap (weightFunc item) = false) ∧
        (((st.bins.length + 1 : Nat) : Int) > s.Lookback) ∧
        ∃ pre b post,
          st.bins ++ [{ binWeight := wrap (0 + weightFunc item),
                        targetWeight := s.TargetWeight, items := [item] }] = pre ++ b :: post ∧
          (s.LargestBinFirst = false → pre = []) ∧
          packItem s wrap weightFunc cont item st =
            .ok ({ bins := pre ++ post, yielded := st.yielded ++ [b.items],
                   sizes := st.sizes ++ [st.bins.length + 1] ++ [(pre ++ post).length],
                   weighed := st.weighed ++ [item],
                   evicted := st.evicted ++ [b] },
                 cont (st.yielded ++ [b.items]))) := by
  cases hfind : findBin wrap st.bins (weightFunc item) with
  | some i =>
    left
    obtain ⟨pre, b, post, hsplit, _, hb, hpre, hupd⟩ :=
      findBin_eq_some wrap (fun b => b.Add wrap item (weightFunc item)) (weightFunc item)
        st.bins i hfind
    refine ⟨pre, b, post, hsplit, hb, hpre, ?_⟩
    unfold packItem
    simp only [hfind, hupd]
  | none =>
    right
    have hnone := findBin_eq_none wrap (weightFunc item) st.bins hfind
    by_cases hover : (((st.bins.length + 1 : Nat) : Int) > s.Lookback)
    · right
      refine ⟨hnone, hover, ?_⟩
      obtain ⟨pre, b, post, hsplit, hfifo, _, hev⟩ :=
        evict_split s cont
          { bins := st.bins ++
              [{ binWeight := wrap (0 + weightFunc item),
                 targetWeight := s.TargetWeight, items := [item] }],
            yielded := st.yielded, sizes := st.sizes ++ [st.bins.length + 1],
            weighed := st.weighed ++ [item],
            evicted := st.evicted } (by simp)
      refine ⟨pre, b, post, hsplit, hfifo, ?_⟩
      unfold packItem
      simp only [hfind, newBin_eq, List.length_append, List.length_singleton, hover, if_true]
      rw [hev]
      simp
    · left
      refine ⟨hnone, hover, ?_⟩
      unfold packItem
      simp only [hfind, newBin_eq, List.length_append, List.length_singleton, hover, if_false]

/-- The body of the item loop never fails. -/
theorem packItem_ok {T : Type} (s : SlicePacker) (wrap : Int → Int) (weightFunc : T → Int)
    (cont : List (List T) → Bool) (item : T) (st : PackState T) :
    ∃ st' flag, packItem s wrap weightFunc cont item st = .ok (st', flag) := by
  rcases packItem_cases s wrap weightFunc cont item st with
    ⟨_, _, _, _, _, _, h⟩ | ⟨_, _, h⟩ | ⟨_, _, _, _, _, _, _, h⟩
  · exact ⟨_, _, h⟩
  · exact ⟨_, _, h⟩
  · exact ⟨_, _, h⟩

/-! ## Loop rules

An invariant `Inv done st` relates the items consumed so far to the state of the generator.
It is carried through the item loop when each of the three ways of `packItem_cases` keeps it,
and through the drain loop when an eviction keeps it. -/

/-- The item loop never fails, and it stops early only on the consumer's answer. -/
theorem packItems_ok {T : Type} (s : SlicePacker) (wrap : Int → Int) (weightFunc : T → Int)
    (cont : List (List T) → Bool) :
    ∀ (items : List T) (st : PackState T),
      ∃ st' flag, packItems s wrap weightFunc cont items st = .ok (st', flag) ∧
        ((∀ ys, cont ys = true) → flag = true) := by
  intro items
  induction items with
  | nil => intro st; exact ⟨st, true, rfl, fun _ => rfl⟩
  | cons item rest ih =>
    intro st
    obtain ⟨st1, flag1, h1⟩ := packItem_ok s wrap weightFunc cont item st
    have hflag : (∀ ys, cont ys = true) → flag1 = true := by
      intro hc
      rcases packItem_cases s wrap weightFunc cont item st with
        ⟨_, _, _, _, _, _, h⟩ | ⟨_, _, h⟩ | ⟨_, _, _, _, _, _, _, h⟩
      · rw [h1] at h; injection h with h; injection h with _ h
      · rw [h1] at h; injection h with h; injection h with _ h
      · rw [h1] at h; injection h with h; injection h with _ h; rw [h]; exact hc _
    cases flag1 with
    | true =>
      obtain ⟨st2, flag2, h2, hc2⟩ := ih st1
      exact ⟨st2, flag2, by simp only [packItems, h1, h2], hc2⟩
    | false =>
      exact ⟨st1, false, by simp only [packItems, h1], hflag⟩

/-- Invariant rule for the item loop. -/
theorem packItems_rule {T : Type} (s : SlicePacker) (wrap : Int → Int) (weightFunc : T → Int)
    (cont : List (List T) → Bool) (all : List T) (Inv : List T → PackState T → Prop)
    (hadd : ∀ (done : List T) (item : T) (later : List T) (st : PackState T)
        (pre : List (Bin T)) (b : Bin T) (post : List (Bin T)),
        all = done ++ item :: later → Inv done st → st.bins = pre ++ b :: post →
        b.CanAdd wrap (weightFunc item) = true →
        (∀ e ∈ pre, e.CanAdd wrap (weightFunc item) = false) →
        Inv (done ++ [item])
          { bins := pre ++ b.Add wrap item (weightFunc item) :: post,
            yielded := st.yielded, sizes := st.sizes, weighed := st.weighed ++ [item],
            evicted := st.evicted })
    (hopen : ∀ (done : List T) (item : T) (later : List T) (st : PackState T),
        all = done ++ item :: later → Inv done st →
        (∀ e ∈ st.bins, e.CanAdd wrap (weightFunc item) = false) →
        ¬ (((st.bins.length + 1 : Nat) : Int) > s.Lookback) →
        Inv (done ++ [item])
          { bins := st.bins ++
              [{ binWeight := wrap (0 + weightFunc item),
                 targetWeight := s.TargetWeight, items := [item] }],
            yielded := st.yielded, sizes := st.sizes ++ [st.bins.length + 1],
            weighed := st.weighed ++ [item],
            evicted := st.evicted })
    (hopenEvict : ∀ (done : List T) (item : T) (later : List T) (st : PackState T)
        (pre : List (Bin T)) (b : Bin T) (post : List (Bin T)),
        all = done ++ item :: later → Inv done st →
        (∀ e ∈ st.bins, e.CanAdd wrap (weightFunc item) = false) →
        (((st.bins.length + 1 : Nat) : Int) > s.Lookback) →
        st.bins ++ [{ binWeight := wrap (0 + weightFunc item),
                      targetWeight := s.TargetWeight, items := [item] }] = pre ++ b :: post →
        (s.LargestBinFirst = false → pre = []) →
        Inv (done ++ [item])
          { bins := pre ++ post, yielded := st.yielded ++ [b.items],
            sizes := st.sizes ++ [st.bins.length + 1] ++ [(pre ++ post).length],
            weighed := st.weighed ++ [item],
            evicted := st.evicted ++ [b] }) :
    ∀ (items done : List T) (st st' : PackState T) (flag : Bool), all = done ++ items →
      Inv done st → packItems s wrap weightFunc cont items st = .ok (st', flag) →
      ∃ taken rest, items = taken ++ rest ∧ Inv (done ++ taken) st' ∧
        (flag = true → rest = []) := by
  intro items
  induction items with
  | nil =>
    intro done st st' flag _ hinv h
    simp only [packItems, Except.ok.injEq, Prod.mk.injEq] at h
    obtain ⟨rfl, rfl⟩ := h
    exact ⟨[], [], rfl, by simpa using hinv, fun _ => rfl⟩
  | cons item rest ih =>
    intro done st st' flag hall hinv h
    have key : ∀ (st1 : PackState T) (flag1 : Bool),
        packItem s wrap weightFunc cont item st = .ok (st1, flag1) →
        Inv (done ++ [item]) st1 →
        ∃ taken rest', item :: rest = taken ++ rest' ∧ Inv (done ++ taken) st' ∧
          (flag = true → rest' = []) := by
      intro st1 flag1 h1 hinv1
      cases flag1 with
      | true =>
        simp only [packItems, h1] at h
        obtain ⟨taken, rest', hsplit, hinv', hfl⟩ :=
          ih (done ++ [item]) st1 st' flag (by simp [hall]) hinv1 h
        refine ⟨item :: taken, rest', by simp [hsplit], ?_, hfl⟩
        simpa using hinv'
      | false =>
        simp only [packItems, h1, Except.ok.injEq, Prod.mk.injEq] at h
        obtain ⟨rfl, rfl⟩ := h
        exact ⟨[item], rest, rfl, hinv1, fun hf => by simp at hf⟩
    rcases packItem_cases s wrap weightFunc cont item st with
      ⟨pre, b, post, hsplit, hb, hpre, h1⟩ | ⟨hnone, hover, h1⟩ |
      ⟨hnone, hover, pre, b, post, hsplit, hfifo, h1⟩
    · exact key _ _ h1 (hadd done item rest st pre b post hall hinv hsplit hb hpre)
    · exact key _ _ h1 (hopen done item rest st hall hinv hnone hover)
    · exact key _ _ h1
        (hopenEvict done item rest st pre b post hall hinv hnone hover hsplit hfifo)

/-- Invariant rule for the drain loop: with one iteration allowed per open bin the loop never
fails, and it ends with an empty open-bin list unless the consumer stopped it. -/
theorem drainBins_rule {T : Type} (s : SlicePacker) (cont : List (List T) → Bool)
    (Inv : PackState T → Prop)
    (hdrain : ∀ (st : PackState T) (pre : List (Bin T)) (b : Bin T) (post : List (Bin T)),
        Inv st → st.bins = pre ++ b :: post → (s.LargestBinFirst = false → pre = []) →
        Inv { bins := pre ++ post, yielded := st.yielded ++ [b.items],
              sizes := st.sizes ++ [(pre ++ post).length], weighed := st.weighed,
              evicted := st.evicted ++ [b] }) :
    ∀ (fuel : Nat) (st : PackState T), st.bins.length ≤ fuel → Inv st →
      ∃ st' flag, drainBins s cont fuel st = .ok (st', flag) ∧ Inv st' ∧
        (flag = true → st'.bins = []) ∧ ((∀ ys, cont ys = true) → flag = true) := by
  intro fuel
  induction fuel with
  | zero =>
    intro st hlen hinv
    have hnil : st.bins = [] := List.length_eq_zero.mp (Nat.le_zero.mp hlen)
    exact ⟨st, true, by simp [drainBins, hnil], hinv, fun _ => hnil, fun _ => rfl⟩
  | succ fuel ih =>
    intro st hlen hinv
    by_cases hnil : st.bins = []
    · exact ⟨st, true, by simp [drainBins, hnil], hinv, fun _ => hnil, fun _ => rfl⟩
    · obtain ⟨pre, b, post, hsplit, hfifo, _, hev⟩ := evict_split s cont st hnil
      have hpos : st.bins.length > 0 := List.length_pos.mpr hnil
      have hinv1 := hdrain st pre b post hinv hsplit hfifo
      cases hc : cont (st.yielded ++ [b.items]) with
      | true =>
        have hlen1 : (pre ++ post).length ≤ fuel := by
          have := congrArg List.length hsplit
          simp only [List.length_append, List.length_cons] at this ⊢
          omega
        obtain ⟨st2, flag2, h2, hinv2, hnil2, hc2⟩ := ih _ hlen1 hinv1
        refine ⟨st2, flag2, ?_, hinv2, hnil2, hc2⟩
        simp only [drainBins, hpos, if_true, hev, hc]
        exact h2
      | false =>
        refine ⟨_, false, ?_, hinv1, fun hf => by simp at hf, fun hall => ?_⟩
        · simp only [drainBins, hpos, if_true, hev, hc]
        · rw [hall] at hc; exact absurd hc (by decide)

/-- Invariant rule for `Pack`: the run under `slices.Collect` returns, every bin has been
evicted by then, and an invariant kept by each step holds of the final state, with the whole
input consumed. -/
theorem packSeq_collect_rule {T : Type} (s : SlicePacker) (wrap : Int → Int)
    (weightFunc : T → Int) (all : List T) (Inv : List T → PackState T → Prop)
    (h0 : Inv [] PackState.init)
    (hadd : ∀ (done : List T) (item : T) (later : List T) (st : PackState T)
        (pre : List (Bin T)) (b : Bin T) (post : List (Bin T)),
        all = done ++ item :: later → Inv done st → st.bins = pre ++ b :: post →
        b.CanAdd wrap (weightFunc item) = true →
        (∀ e ∈ pre, e.CanAdd wrap (weightFunc item) = false) →
        Inv (done ++ [item])
          { bins := pre ++ b.Add wrap item (weightFunc item) :: post,
            yielded := st.yielded, sizes := st.sizes, weighed := st.weighed ++ [item],
            evicted := st.evicted })
    (hopen : ∀ (done : List T) (item : T) (later : List T) (st : PackState T),
        all = done ++ item :: later → Inv done st →
        (∀ e ∈ st.bins, e.CanAdd wrap (weightFunc item) = false) →
        ¬ (((st.bins.length + 1 : Nat) : Int) > s.Lookback) →
        Inv (done ++ [item])
          { bins := st.bins ++
              [{ binWeight := wrap (0 + weightFunc item),
                 targetWeight := s.TargetWeight, items := [item] }],
            yielded := st.yielded, sizes := st.sizes ++ [st.bins.length + 1],
            weighed := st.weighed ++ [item],
            evicted := st.evicted })
    (hopenEvict : ∀ (done : List T) (item : T) (later : List T) (st : PackState T)
        (pre : List (Bin T)) (b : Bin T) (post : List (Bin T)),
        all = done ++ item :: later → Inv done st →
        (∀ e ∈ st.bins, e.CanAdd wrap (weightFunc item) = false) →
        (((st.bins.length + 1 : Nat) : Int) > s.Lookback) →
        st.bins ++ [{ binWeight := wrap (0 + weightFunc item),
                      targetWeight := s.TargetWeight, items := [item] }] = pre ++ b :: post →
        (s.LargestBinFirst = false → pre = []) →
        Inv (done ++ [item])
          { bins := pre ++ post, yielded := st.yielded ++ [b.items],
            sizes := st.sizes ++ [st.bins.length + 1] ++ [(pre ++ post).length],
            weighed := st.weighed ++ [item],
            evicted := st.evicted ++ [b] })
    (hdrain : ∀ (st : PackState T) (pre : List (Bin T)) (b : Bin T) (post : List (Bin T)),
        Inv all st → st.bins = pre ++ b :: post → (s.LargestBinFirst = false → pre = []) →
        Inv all { bins := pre ++ post, yielded := st.yielded ++ [b.items],
                  sizes := st.sizes ++ [(pre ++ post).length], weighed := st.weighed,
                  evicted := st.evicted ++ [b] }) :
    ∃ st, packSeq s wrap weightFunc collectAll all = .ok st ∧ st.bins = [] ∧
      Inv all st ∧ Pack s wrap all weightFunc = .ok st.yielded := by
  obtain ⟨st1, flag1, h1, hf1⟩ := packItems_ok s wrap weightFunc collectAll all PackState.init
  have hflag1 : flag1 = true := hf1 (fun _ => rfl)
  subst hflag1
  obtain ⟨taken, rest, hsplit, hinv1, hrest⟩ :=
    packItems_rule s wrap weightFunc collectAll all Inv hadd hopen hopenEvict all [] _ _ _
      rfl h0 h1
  have hrest' : rest = [] := hrest rfl
  subst hrest'
  simp only [List.append_nil, List.nil_append] at hsplit hinv1
  subst hsplit
  obtain ⟨st2, flag2, h2, hinv2, hnil2, hf2⟩ :=
    drainBins_rule s collectAll (Inv all) hdrain st1.bins.length st1 le_rfl hinv1
  have hflag2 : flag2 = true := hf2 (fun _ => rfl)
  subst hflag2
  have hseq : packSeq s wrap weightFunc collectAll all = .ok st2 := by
    simp only [packSeq, h1, h2]
  exact ⟨st2, hseq, hnil2 rfl, hinv2, by simp only [Pack, hseq]⟩

/-! ## `Pack` returns, and loses or invents no item -/

/-- The items of a list of open bins, bin after bin, around one bin. -/
theorem flatten_items_split {T : Type} (pre : List (Bin T)) (b : Bin T) (post : List (Bin T)) :
    ((pre ++ b :: post).map Bin.items).flatten
      = (pre.map Bin.items).flatten ++ b.items ++ (post.map Bin.items).flatten := by
  simp

/-- Appending an item to one of the middle segments appends it to the whole, up to order. -/
theorem perm_grow_mid {T : Type} (Y P B Q D : List T) (x : T)
    (h : (Y ++ (P ++ B ++ Q)).Perm D) : (Y ++ (P ++ (B ++ [x]) ++ Q)).Perm (D ++ [x]) := by
  have h1 : (Y ++ (P ++ (B ++ [x]) ++ Q)).Perm ((Y ++ (P ++ B ++ Q)) ++ [x]) := by
    rw [← Multiset.coe_eq_coe]
    simp only [← Multiset.coe_add]
    abel
  exact h1.trans (h.append_right [x])

/-- Moving one of the middle segments to the front part changes the order only. -/
theorem perm_move_mid {T : Type} (Y P B Q D : List T)
    (h : (Y ++ (P ++ B ++ Q)).Perm D) : ((Y ++ B) ++ (P ++ Q)).Perm D := by
  have h1 : ((Y ++ B) ++ (P ++ Q)).Perm (Y ++ (P ++ B ++ Q)) := by
    rw [← Multiset.coe_eq_coe]
    simp only [← Multiset.coe_add]
    abel
  exact h1.trans h

/-- The bins handed out by `Pack`, one after the other, hold the input up to order. -/
theorem Pack_flatten_perm {T : Type} (s : SlicePacker) (wrap : Int → Int) (items : List T)
    (weightFunc : T → Int) :
    ∃ out, Pack s wrap items weightFunc = .ok out ∧ out.flatten.Perm items := by
  obtain ⟨st, _, hnil, hinv, hpack⟩ :=
    packSeq_collect_rule s wrap weightFunc items
      (fun done st => (st.yielded.flatten ++ (st.bins.map Bin.items).flatten).Perm done)
      (by simp [PackState.init])
      (by
        intro done item later st pre b post _ hinv hsplit _ _
        rw [hsplit, flatten_items_split] at hinv
        show (st.yielded.flatten ++
          ((pre ++ b.Add wrap item (weightFunc item) :: post).map Bin.items).flatten).Perm _
        rw [flatten_items_split]
        exact perm_grow_mid _ _ _ _ _ _ hinv)
      (by
        intro done item later st _ hinv _ _
        show (st.yielded.flatten ++ ((st.bins ++ [_]).map Bin.items).flatten).Perm _
        have := perm_grow_mid st.yielded.flatten (st.bins.map Bin.items).flatten [] [] done item
          (by simpa using hinv)
        simpa using this)
      (by
        intro done item later st pre b post _ hinv _ _ hsplit _
        have h1 : (st.yielded.flatten ++ ((st.bins ++
            [({ binWeight := wrap (0 + weightFunc item), targetWeight := s.TargetWeight,
                items := [item] } : Bin T)]).map Bin.items).flatten).Perm (done ++ [item]) := by
          have := perm_grow_mid st.yielded.flatten (st.bins.map Bin.items).flatten [] [] done
            item (by simpa using hinv)
          simpa using this
        rw [hsplit, flatten_items_split] at h1
        have h2 := perm_move_mid _ _ _ _ _ h1
        show ((st.yielded ++ [b.items]).flatten ++ ((pre ++ post).map Bin.items).flatten).Perm _
        simpa using h2)
      (by
        intro st pre b post hinv hsplit _
        rw [hsplit, flatten_items_split] at hinv
        have h2 := perm_move_mid _ _ _ _ _ hinv
        show ((st.yielded ++ [b.items]).flatten ++ ((pre ++ post).map Bin.items).flatten).Perm _
        simpa using h2)
  refine ⟨st.yielded, hpack, ?_⟩
  simpa [hnil] using hinv

/-- C1. For every configuration, input and weight function (and whatever the `int64`
arithmetic does on overflow), `Pack` returns, and the concatenation of the bins it returns is
a permutation of the input: every input item occurs in the bins with the multiplicity it has
in the input, and nothing else occurs. -/
theorem Pack_is_permutation {T : Type} (s : SlicePacker) (wrap : Int → Int) (items : List T)
    (weightFunc : T → Int) :
    ∃ out, Pack s wrap items weightFunc = .ok out ∧ out.flatten.Perm items :=
  Pack_flatten_perm s wrap items weightFunc

/-! ## Exact running totals -/

/-- On exact integers nothing overflows. -/
theorem noOverflow_id {T : Type} (weightFunc : T → Int) (items : List T) :
    NoOverflow id weightFunc items :=
  fun _ _ => rfl

/-- An `int64` sum does not wrap when it lies in the range of `int64`. -/
theorem wrapInt64_eq_self (x : Int) (hlo : -(2 ^ 63) ≤ x) (hhi : x < 2 ^ 63) :
    wrapInt64 x = x := by
  unfold wrapInt64
  norm_num at hlo hhi ⊢
  omega

/-- With `int64` arithmetic nothing overflows when the weights are non-negative and their
total over the input is below `2^63`. -/
theorem noOverflow_wrapInt64 {T : Type} (weightFunc : T → Int) (items : List T)
    (hpos : ∀ x ∈ items, 0 ≤ weightFunc x) (hsum : (items.map weightFunc).sum < 2 ^ 63) :
    NoOverflow wrapInt64 weightFunc items := by
  intro sub hsub
  have hpos' : ∀ a ∈ items.map weightFunc, 0 ≤ a := by
    intro a ha
    obtain ⟨x, hx, rfl⟩ := List.mem_map.mp ha
    exact hpos x hx
  have hle : (sub.map weightFunc).sum ≤ (items.map weightFunc).sum :=
    (hsub.map weightFunc).sum_le_sum hpos'
  have hge : 0 ≤ (sub.map weightFunc).sum := by
    apply List.sum_nonneg
    intro a ha
    exact hpos' a ((hsub.map weightFunc).subset ha)
  exact wrapInt64_eq_self _ (by norm_num; omega) (lt_of_le_of_lt hle hsum)

/-- A bin in step with its items stays so when an item is added, and the test `CanAdd`
compares the exact total with the capacity, as long as nothing overflows. -/
theorem exact_add {T : Type} (wrap : Int → Int) (weightFunc : T → Int) (target : Int)
    (all done later : List T) (item : T) (b : Bin T)
    (hno : NoOverflow wrap weightFunc all) (hall : all = done ++ item :: later)
    (hex : b.Exact weightFunc target) (hsub : b.items.Sublist done) :
    (b.Add wrap item (weightFunc item)).Exact weightFunc target ∧
      (b.Add wrap item (weightFunc item)).items = b.items ++ [item] ∧
      (b.items ++ [item]).Sublist (done ++ [item]) ∧
      (b.CanAdd wrap (weightFunc item) = true ↔
        ((b.items ++ [item]).map weightFunc).sum ≤ target) := by
  have hsub' : (b.items ++ [item]).Sublist (done ++ [item]) :=
    hsub.append (List.Sublist.refl _)
  have hsub'' : (b.items ++ [item]).Sublist all := by
    rw [hall]
    have : done ++ item :: later = (done ++ [item]) ++ later := by simp
    rw [this]
    exact hsub'.trans (List.sublist_append_left _ _)
  have hsum : ((b.items ++ [item]).map weightFunc).sum = b.binWeight + weightFunc item := by
    simp [hex.2]
  have hw : wrap (b.binWeight + weightFunc item) = b.binWeight + weightFunc item := by
    rw [← hsum]; exact hno _ hsub''
  refine ⟨⟨?_, ?_⟩, rfl, hsub', ?_⟩
  · simpa [Bin.Add] using hex.1
  · simp only [Bin.Add, hw, hsum]
  · simp only [Bin.CanAdd, hw, hsum, hex.1, decide_eq_true_eq]

/-- The bin opened for an item is in step with its items, as long as nothing overflows. -/
theorem exact_new {T : Type} (wrap : Int → Int) (weightFunc : T → Int) (target : Int)
    (all done later : List T) (item : T)
    (hno : NoOverflow wrap weightFunc all) (hall : all = done ++ item :: later) :
    wrap (0 + weightFunc item) = weightFunc item ∧
    Bin.Exact weightFunc target
      { binWeight := wrap (0 + weightFunc item), targetWeight := target, items := [item] } := by
  have hsub : [item].Sublist all := by
    rw [hall]
    exact List.singleton_sublist.mpr (by simp)
  have hw : wrap (0 + weightFunc item) = weightFunc item := by
    have := hno [item] hsub
    simpa using this
  refine ⟨hw, rfl, ?_⟩
  show wrap (0 + weightFunc item) = ([item].map weightFunc).sum
  rw [hw]
  simp

/-! ## Properties of every returned bin -/

/-- Rule for a property of every bin `Pack` returns.  A property `P done b` of an open bin
that survives the arrival of further items, holds of a bin after an accepted `Add`, and holds
of a bin just opened, gives `Q` of the items of every bin at the time it is evicted. -/
theorem Pack_bins_rule {T : Type} (s : SlicePacker) (wrap : Int → Int) (weightFunc : T → Int)
    (all : List T) (P : List T → Bin T → Prop) (Q : List T → Prop)
    (hmono : ∀ (done : List T) (item : T) (later : List T) (b : Bin T),
        all = done ++ item :: later → P done b → P (done ++ [item]) b)
    (hadd : ∀ (done : List T) (item : T) (later : List T) (b : Bin T),
        all = done ++ item :: later → P done b → b.CanAdd wrap (weightFunc item) = true →
        P (done ++ [item]) (b.Add wrap item (weightFunc item)))
    (hnew : ∀ (done : List T) (item : T) (later : List T), all = done ++ item :: later →
        P (done ++ [item])
          { binWeight := wrap (0 + weightFunc item), targetWeight := s.TargetWeight,
            items := [item] })
    (hout : ∀ (done later : List T) (b : Bin T), all = done ++ later → P done b → Q b.items) :
    ∃ out, Pack s wrap all weightFunc = .ok out ∧ ∀ y ∈ out, Q y := by
  obtain ⟨st, _, _, hinv, hpack⟩ :=
    packSeq_collect_rule s wrap weightFunc all
      (fun done st => (∀ y ∈ st.yielded, Q y) ∧ (∀ b ∈ st.bins, P done b))
      (by simp [PackState.init])
      (by
        intro done item later st pre b post hall hinv hsplit hb _
        refine ⟨hinv.1, ?_⟩
        intro c hc
        have hP : ∀ e ∈ pre ++ b :: post, P done e := by rw [← hsplit]; exact hinv.2
        rcases List.mem_append.mp hc with hc | hc
        · exact hmono done item later c hall (hP c (by simp [hc]))
        · rcases List.mem_cons.mp hc with rfl | hc
          · exact hadd done item later b hall (hP b (by simp)) hb
          · exact hmono done item later c hall (hP c (by simp [hc])))
      (by
        intro done item later st hall hinv _ _
        refine ⟨hinv.1, ?_⟩
        intro c hc
        rcases List.mem_append.mp hc with hc | hc
        · exact hmono done item later c hall (hinv.2 c hc)
        · rw [List.mem_singleton.mp hc]
          exact hnew done item later hall)
      (by
        intro done item later st pre b post hall hinv _ _ hsplit _
        have hP : ∀ e ∈ pre ++ b :: post, P (done ++ [item]) e := by
          rw [← hsplit]
          intro c hc
          rcases List.mem_append.mp hc with hc | hc
          · exact hmono done item later c hall (hinv.2 c hc)
          · rw [List.mem_singleton.mp hc]
            exact hnew done item later hall
        refine ⟨?_, ?_⟩
        · intro y hy
          rcases List.mem_append.mp hy with hy | hy
          · exact hinv.1 y hy
          · rw [List.mem_singleton.mp hy]
            exact hout (done ++ [item]) later b (by simp [hall]) (hP b (by simp))
        · intro c hc
          rcases List.mem_append.mp hc with hc | hc
          · exact hP c (by simp [hc])
          · exact hP c (by simp [hc]))
      (by
        intro st pre b post hinv hsplit _
        have hP : ∀ e ∈ pre ++ b :: post, P all e := by rw [← hsplit]; exact hinv.2
        refine ⟨?_, ?_⟩
        · intro y hy
          rcases List.mem_append.mp hy with hy | hy
          · exact hinv.1 y hy
          · rw [List.mem_singleton.mp hy]
            exact hout all [] b (by simp) (hP b (by simp))
        · intro c hc
          rcases List.mem_append.mp hc with hc | hc
          · exact hP c (by simp [hc])
          · exact hP c (by simp [hc]))
  exact ⟨st.yielded, hpack, hinv.1⟩

/-- Every bin returned by `Pack` is a subsequence of the input. -/
theorem Pack_bins_sublist {T : Type} (s : SlicePacker) (wrap : Int → Int) (items : List T)
    (weightFunc : T → Int) :
    ∃ out, Pack s wrap items weightFunc = .ok out ∧ ∀ bin ∈ out, bin.Sublist items :=
  Pack_bins_rule s wrap weightFunc items (fun done b => b.items.Sublist done)
    (fun y => y.Sublist items)
    (fun done item _ _ _ h => h.trans (List.sublist_append_left done [item]))
    (fun _ item _ _ _ h _ => h.append (List.Sublist.refl [item]))
    (fun done item _ _ => List.sublist_append_right done [item])
    (fun done later _ hall h => by
      rw [hall]; exact h.trans (List.sublist_append_left done later))

/-- C7. For every configuration, input and weight function, `Pack` returns, and every bin it
returns lists its items in input order: the bin is a subsequence of the input slice. -/
theorem Pack_bins_keep_input_order {T : Type} (s : SlicePacker) (wrap : Int → Int)
    (items : List T) (weightFunc : T → Int) :
    ∃ out, Pack s wrap items weightFunc = .ok out ∧ ∀ bin ∈ out, bin.Sublist items :=
  Pack_bins_sublist s wrap items weightFunc

/-- When nothing overflows, every bin returned by `Pack` holds one item or weighs no more than
`TargetWeight`. -/
theorem Pack_bins_within_target {T : Type} (s : SlicePacker) (wrap : Int → Int)
    (items : List T) (weightFunc : T → Int) (hno : NoOverflow wrap weightFunc items) :
    ∃ out, Pack s wrap items weightFunc = .ok out ∧
      ∀ bin ∈ out, bin.length = 1 ∨ (bin.map weightFunc).sum ≤ s.TargetWeight :=
  Pack_bins_rule s wrap weightFunc items
    (fun done b => b.Exact weightFunc s.TargetWeight ∧ b.items.Sublist done ∧
      (b.items.length = 1 ∨ (b.items.map weightFunc).sum ≤ s.TargetWeight))
    (fun y => y.length = 1 ∨ (y.map weightFunc).sum ≤ s.TargetWeight)
    (fun done item _ _ _ h =>
      ⟨h.1, h.2.1.trans (List.sublist_append_left done [item]), h.2.2⟩)
    (fun done item later b hall h hb => by
      obtain ⟨hex, hitems, hsub, hcan⟩ :=
        exact_add wrap weightFunc s.TargetWeight items done later item b hno hall h.1 h.2.1
      refine ⟨hex, by rw [hitems]; exact hsub, Or.inr ?_⟩
      rw [hitems]
      exact hcan.mp hb)
    (fun done item later hall =>
      ⟨(exact_new wrap weightFunc s.TargetWeight items done later item hno hall).2,
        List.sublist_append_right done [item], Or.inl rfl⟩)
    (fun _ _ _ _ h => h.2.2)

/-- C2. For every configuration, input and weight function for which no sum of weights
overflows (in particular on exact integers), `Pack` returns, and every bin it returns either
contains exactly one item or has a total item weight of at most `TargetWeight`. -/
theorem Pack_bin_weight_bound {T : Type} (s : SlicePacker) (wrap : Int → Int)
    (items : List T) (weightFunc : T → Int) (hno : NoOverflow wrap weightFunc items) :
    ∃ out, Pack s wrap items weightFunc = .ok out ∧
      ∀ bin ∈ out, bin.length = 1 ∨ (bin.map weightFunc).sum ≤ s.TargetWeight :=
  Pack_bins_within_target s wrap items weightFunc hno

/-- C2, at an input: items `1, 2, 3` of weights `3, 3, 2` under `int64` arithmetic, with
`TargetWeight = 5`, `Lookback = 2`, FIFO. -/
theorem Pack_bin_weight_bound_witness :
    NoOverflow wrapInt64 (fun i : Nat => if i = 3 then (2 : Int) else 3) [1, 2, 3] ∧
    ∃ out, Pack ⟨5, 2, false⟩ wrapInt64 [1, 2, 3] (fun i : Nat => if i = 3 then (2 : Int) else 3)
        = .ok out ∧
      ∀ bin ∈ out, bin.length = 1 ∨
        (bin.map (fun i : Nat => if i = 3 then (2 : Int) else 3)).sum ≤ 5 :=
  have hno : NoOverflow wrapInt64 (fun i : Nat => if i = 3 then (2 : Int) else 3) [1, 2, 3] :=
    noOverflow_wrapInt64 _ _ (by decide) (by decide)
  ⟨hno, Pack_bin_weight_bound ⟨5, 2, false⟩ wrapInt64 [1, 2, 3] _ hno⟩

/-! ## Degenerate configurations -/

/-- A list of non-negative integers whose sum is not positive holds zeros only. -/
theorem all_zero_of_sum_nonpos :
    ∀ (l : List Int), (∀ a ∈ l, 0 ≤ a) → l.sum ≤ 0 → ∀ a ∈ l, a = 0 := by
  intro l
  induction l with
  | nil => intro _ _ a ha; simp at ha
  | cons x l ih =>
    intro hpos hsum a ha
    have hx : 0 ≤ x := hpos x (by simp)
    have hl : 0 ≤ l.sum := List.sum_nonneg (fun b hb => hpos b (by simp [hb]))
    simp only [List.sum_cons] at hsum
    rcases List.mem_cons.mp ha with rfl | ha
    · omega
    · exact ih (fun b hb => hpos b (by simp [hb])) (by omega) a ha

/-- With `TargetWeight <= 0`, non-negative weights and no overflow, a returned bin of more
than one item can only arise for `TargetWeight = 0`, from items of weight `0`. -/
theorem Pack_bins_nonpositive_target {T : Type} (s : SlicePacker) (wrap : Int → Int)
    (items : List T) (weightFunc : T → Int) (hT : s.TargetWeight ≤ 0)
    (hpos : ∀ x ∈ items, 0 ≤ weightFunc x) (hno : NoOverflow wrap weightFunc items) :
    ∃ out, Pack s wrap items weightFunc = .ok out ∧
      ∀ bin ∈ out, bin.length = 1 ∨ (s.TargetWeight = 0 ∧ ∀ x ∈ bin, weightFunc x = 0) :=
  Pack_bins_rule s wrap weightFunc items
    (fun done b => b.Exact weightFunc s.TargetWeight ∧ b.items.Sublist done ∧
      (b.items.length = 1 ∨ (s.TargetWeight = 0 ∧ ∀ x ∈ b.items, weightFunc x = 0)))
    (fun y => y.length = 1 ∨ (s.TargetWeight = 0 ∧ ∀ x ∈ y, weightFunc x = 0))
    (fun done item _ _ _ h =>
      ⟨h.1, h.2.1.trans (List.sublist_append_left done [item]), h.2.2⟩)
    (fun done item later b hall h hb => by
      obtain ⟨hex, hitems, hsub, hcan⟩ :=
        exact_add wrap weightFunc s.TargetWeight items done later item b hno hall h.1 h.2.1
      refine ⟨hex, by rw [hitems]; exact hsub, Or.inr ?_⟩
      rw [hitems]
      have hle := hcan.mp hb
      have hin : ∀ x ∈ b.items ++ [item], x ∈ items := by
        intro x hx
        rw [hall]
        have : done ++ item :: later = (done ++ [item]) ++ later := by simp
        rw [this]
        exact List.mem_append_left _ (hsub.subset hx)
      have hnn : ∀ a ∈ (b.items ++ [item]).map weightFunc, 0 ≤ a := by
        intro a ha
        obtain ⟨x, hx, rfl⟩ := List.mem_map.mp ha
        exact hpos x (hin x hx)
      have hsum0 : 0 ≤ ((b.items ++ [item]).map weightFunc).sum := List.sum_nonneg hnn
      refine ⟨by omega, ?_⟩
      intro x hx
      exact all_zero_of_sum_nonpos _ hnn (by omega) _ (List.mem_map_of_mem weightFunc hx))
    (fun done item later hall =>
      ⟨(exact_new wrap weightFunc s.TargetWeight items done later item hno hall).2,
        List.sublist_append_right done [item], Or.inl rfl⟩)
    (fun _ _ _ _ h => h.2.2)

/-- C9, as amended. For every configuration with `TargetWeight <= 0`, every input and every
weight function with non-negative weights for which no sum of weights overflows, `Pack`
returns, and every bin it returns contains exactly one item, unless `TargetWeight = 0` and
all the items of the bin have weight `0`. -/
theorem Pack_nonpositive_target_singletons {T : Type} (s : SlicePacker) (wrap : Int → Int)
    (items : List T) (weightFunc : T → Int) (hT : s.TargetWeight ≤ 0)
    (hpos : ∀ x ∈ items, 0 ≤ weightFunc x) (hno : NoOverflow wrap weightFunc items) :
    ∃ out, Pack s wrap items weightFunc = .ok out ∧
      ∀ bin ∈ out, bin.length = 1 ∨ (s.TargetWeight = 0 ∧ ∀ x ∈ bin, weightFunc x = 0) :=
  Pack_bins_nonpositive_target s wrap items weightFunc hT hpos hno

/-- C9 as amended, at an input: items `1, 2, 3` of weights `0, 4, 0` under `int64`
arithmetic, with `TargetWeight = 0`, `Lookback = 3`, FIFO. -/
theorem Pack_nonpositive_target_singletons_witness :
    (0 : Int) ≤ 0 ∧
    (∀ x ∈ [1, 2, 3], 0 ≤ (fun i : Nat => if i = 2 then (4 : Int) else 0) x) ∧
    NoOverflow wrapInt64 (fun i : Nat => if i = 2 then (4 : Int) else 0) [1, 2, 3] ∧
    ∃ out, Pack ⟨0, 3, false⟩ wrapInt64 [1, 2, 3] (fun i : Nat => if i = 2 then (4 : Int) else 0)
        = .ok out ∧
      ∀ bin ∈ out, bin.length = 1 ∨
        ((0 : Int) = 0 ∧ ∀ x ∈ bin, (fun i : Nat => if i = 2 then (4 : Int) else 0) x = 0) :=
  have hpos : ∀ x ∈ [1, 2, 3], 0 ≤ (fun i : Nat => if i = 2 then (4 : Int) else 0) x := by
    decide
  have hno : NoOverflow wrapInt64 (fun i : Nat => if i = 2 then (4 : Int) else 0) [1, 2, 3] :=
    noOverflow_wrapInt64 _ _ hpos (by decide)
  ⟨le_refl 0, hpos, hno,
    Pack_nonpositive_target_singletons ⟨0, 3, false⟩ wrapInt64 [1, 2, 3] _ (le_refl 0) hpos hno⟩

/-- C9 as stated fails: with `TargetWeight = 0` (so `<= 0`), `Lookback = 1`, FIFO, and two
items of weight `0` (non-negative), `CanAdd` computes `0 + 0 <= 0` and accepts the second
item into the bin of the first, so `Pack` returns one bin of two items. -/
theorem Pack_nonpositive_target_counterexample :
    (0 : Int) ≤ 0 ∧ (∀ x ∈ [1, 2], 0 ≤ (fun _ : Nat => (0 : Int)) x) ∧
    Pack ⟨0, 1, false⟩ wrapInt64 [1, 2] (fun _ : Nat => (0 : Int)) = .ok [[1, 2]] ∧
    ¬ (∀ bin ∈ [[1, 2]], bin.length = 1) :=
  ⟨le_refl 0, by decide, rfl, by decide⟩

/-- The overflow case of C9: under `int64` arithmetic, with `TargetWeight = 0` and two items
of weight `2^62`, the sum `2^62 + 2^62` wraps to `-2^63 <= 0` and the second item joins the
bin of the first. -/
theorem Pack_nonpositive_target_overflow :
    Pack ⟨0, 1, false⟩ wrapInt64 [1, 2] (fun _ : Nat => (2 : Int) ^ 62) = .ok [[1, 2]] := by
  rfl

/-- A one-element list splits around an element in one way only. -/
theorem singleton_split {E : Type} (x b : E) (pre post : List E)
    (h : [x] = pre ++ b :: post) : pre = [] ∧ b = x ∧ post = [] := by
  cases pre with
  | nil =>
    simp only [List.nil_append, List.cons.injEq] at h
    exact ⟨rfl, h.1.symm, h.2.symm⟩
  | cons p pre =>
    simp only [List.cons_append, List.cons.injEq] at h
    have := congrArg List.length h.2
    simp only [List.length_nil, List.length_append, List.length_cons] at this
    omega

/-- With `Lookback <= 0` the window is empty between two items, and every item leaves at
once in a bin of its own. -/
theorem Pack_no_lookback {T : Type} (s : SlicePacker) (wrap : Int → Int) (items : List T)
    (weightFunc : T → Int) (hL : s.Lookback ≤ 0) :
    Pack s wrap items weightFunc = .ok (items.map (fun x => [x])) := by
  obtain ⟨st, _, _, hinv, hpack⟩ :=
    packSeq_collect_rule s wrap weightFunc items
      (fun done st => st.bins = [] ∧ st.yielded = done.map (fun x => [x]))
      ⟨rfl, rfl⟩
      (by
        intro done item later st pre b post _ hinv hsplit _ _
        rw [hinv.1] at hsplit
        simp at hsplit)
      (by
        intro done item later st _ hinv _ hover
        exfalso
        apply hover
        rw [hinv.1]
        simp only [List.length_nil, zero_add, Nat.cast_one]
        omega)
      (by
        intro done item later st pre b post _ hinv _ _ hsplit _
        rw [hinv.1] at hsplit
        obtain ⟨rfl, rfl, rfl⟩ := singleton_split _ _ _ _ hsplit
        exact ⟨rfl, by simp [hinv.2]⟩)
      (by
        intro st pre b post hinv hsplit _
        rw [hinv.1] at hsplit
        simp at hsplit)
  rw [hpack, hinv.2]

/-- C8. For every configuration with `Lookback <= 0` (any `TargetWeight`, either eviction
policy), every input and every weight function, `Pack` returns exactly one singleton bin per
input item, in input order. -/
theorem Pack_lookback_nonpositive {T : Type} (s : SlicePacker) (wrap : Int → Int)
    (items : List T) (weightFunc : T → Int) (hL : s.Lookback ≤ 0) :
    Pack s wrap items weightFunc = .ok (items.map (fun x => [x])) :=
  Pack_no_lookback s wrap items weightFunc hL

/-- C8, at an input: three items of weight `1` with `TargetWeight = 10`, `Lookback = -2`,
largest bin first, under `int64` arithmetic. -/
theorem Pack_lookback_nonpositive_witness :
    (-2 : Int) ≤ 0 ∧
    Pack ⟨10, -2, true⟩ wrapInt64 [1, 2, 3] (fun _ : Nat => (1 : Int)) = .ok [[1], [2], [3]] :=
  ⟨by decide, Pack_lookback_nonpositive ⟨10, -2, true⟩ wrapInt64 [1, 2, 3] _ (by decide)⟩

/-! ## Items that never fit together -/

/-- Under FIFO eviction, when no two items of the input fit together and nothing overflows,
every item gets a bin of its own and the bins leave in input order. -/
theorem Pack_fifo_no_fit {T : Type} (s : SlicePacker) (wrap : Int → Int) (items : List T)
    (weightFunc : T → Int) (hfifo : s.LargestBinFirst = false)
    (hpair : items.Pairwise (fun a b => weightFunc a + weightFunc b > s.TargetWeight))
    (hno : NoOverflow wrap weightFunc items) :
    Pack s wrap items weightFunc = .ok (items.map (fun x => [x])) := by
  obtain ⟨st, _, hnil, hinv, hpack⟩ :=
    packSeq_collect_rule s wrap weightFunc items
      (fun done st => st.yielded ++ st.bins.map Bin.items = done.map (fun x => [x]) ∧
        ∀ b ∈ st.bins, ∃ x ∈ done, b.items = [x] ∧ b.Exact weightFunc s.TargetWeight)
      ⟨rfl, by simp [PackState.init]⟩
      (by
        intro done item later st pre b post hall hinv hsplit hb _
        exfalso
        obtain ⟨x, hx, hbx, hex⟩ := hinv.2 b (by rw [hsplit]; simp)
        have hsub : b.items.Sublist done := by
          rw [hbx]; exact List.singleton_sublist.mpr hx
        obtain ⟨_, _, _, hcan⟩ :=
          exact_add wrap weightFunc s.TargetWeight items done later item b hno hall hex hsub
        have hle := hcan.mp hb
        rw [hbx] at hle
        simp only [List.singleton_append, List.map_cons, List.map_nil, List.sum_cons,
          List.sum_nil, add_zero] at hle
        rw [hall] at hpair
        have := (List.pairwise_append.mp hpair).2.2 x hx item (by simp)
        omega)
      (by
        intro done item later st hall hinv _ _
        refine ⟨by simp [← hinv.1], ?_⟩
        intro c hc
        rcases List.mem_append.mp hc with hc | hc
        · obtain ⟨x, hx, h⟩ := hinv.2 c hc
          exact ⟨x, by simp [hx], h⟩
        · rw [List.mem_singleton.mp hc]
          exact ⟨item, by simp, rfl,
            (exact_new wrap weightFunc s.TargetWeight items done later item hno hall).2⟩)
      (by
        intro done item later st pre b post hall hinv _ _ hsplit hpre
        have hpre' := hpre hfifo
        subst hpre'
        have hmem : ∀ c ∈ b :: post, ∃ x ∈ done ++ [item], c.items = [x] ∧
            c.Exact weightFunc s.TargetWeight := by
          have hsplit' : b :: post = st.bins ++
              [({ binWeight := wrap (0 + weightFunc item), targetWeight := s.TargetWeight,
                  items := [item] } : Bin T)] := by simpa using hsplit.symm
          rw [hsplit']
          intro c hc
          rcases List.mem_append.mp hc with hc | hc
          · obtain ⟨x, hx, h⟩ := hinv.2 c hc
            exact ⟨x, by simp [hx], h⟩
          · rw [List.mem_singleton.mp hc]
            exact ⟨item, by simp, rfl,
              (exact_new wrap weightFunc s.TargetWeight items done later item hno hall).2⟩
        refine ⟨?_, fun c hc => hmem c (by simp at hc; simp [hc])⟩
        have h1 := congrArg (fun l => st.yielded ++ l.map Bin.items) hsplit
        simp only [List.nil_append, List.map_append, List.map_cons, List.map_nil] at h1
        show (st.yielded ++ [b.items]) ++ ([] ++ post).map Bin.items = _
        simp only [List.nil_append, List.append_assoc, List.singleton_append, List.map_append,
          List.map_cons, List.map_nil]
        rw [← h1, ← hinv.1]
        simp)
      (by
        intro st pre b post hinv hsplit hpre
        have hpre' := hpre hfifo
        subst hpre'
        refine ⟨?_, fun c hc => hinv.2 c (by rw [hsplit]; simp at hc; simp [hc])⟩
        show (st.yielded ++ [b.items]) ++ ([] ++ post).map Bin.items = _
        rw [← hinv.1, hsplit]
        simp)
  rw [hpack]
  have := hinv.1
  rw [hnil] at this
  simpa using this

/-- C10. Under FIFO eviction, for every `Lookback` and `TargetWeight` and every input in
which no two items fit together (the weights at any two distinct positions add up to more
than `TargetWeight`, with no overflow, in particular on exact integers), `Pack` returns one
singleton bin per item, in input order. -/
theorem Pack_fifo_no_two_fit {T : Type} (s : SlicePacker) (wrap : Int → Int) (items : List T)
    (weightFunc : T → Int) (hfifo : s.LargestBinFirst = false)
    (hpair : items.Pairwise (fun a b => weightFunc a + weightFunc b > s.TargetWeight))
    (hno : NoOverflow wrap weightFunc items) :
    Pack s wrap items weightFunc = .ok (items.map (fun x => [x])) :=
  Pack_fifo_no_fit s wrap items weightFunc hfifo hpair hno

/-- C10, at the input of scenario A: weights `[3,3,3,3]`, `TargetWeight = 5`, `Lookback = 1`,
FIFO, under `int64` arithmetic, give `[[i1],[i2],[i3],[i4]]`. -/
theorem Pack_fifo_no_two_fit_witness :
    [1, 2, 3, 4].Pairwise
      (fun a b : Nat => (fun _ : Nat => (3 : Int)) a + (fun _ : Nat => (3 : Int)) b > 5) ∧
    NoOverflow wrapInt64 (fun _ : Nat => (3 : Int)) [1, 2, 3, 4] ∧
    Pack ⟨5, 1, false⟩ wrapInt64 [1, 2, 3, 4] (fun _ : Nat => (3 : Int))
      = .ok [[1], [2], [3], [4]] :=
  have hpair : [1, 2, 3, 4].Pairwise
      (fun a b : Nat => (fun _ : Nat => (3 : Int)) a + (fun _ : Nat => (3 : Int)) b > 5) := by
    decide
  have hno : NoOverflow wrapInt64 (fun _ : Nat => (3 : Int)) [1, 2, 3, 4] :=
    noOverflow_wrapInt64 _ _ (by decide) (by decide)
  ⟨hpair, hno, Pack_fifo_no_two_fit ⟨5, 1, false⟩ wrapInt64 [1, 2, 3, 4] _ rfl hpair hno⟩

/-! ## The size of the window -/

/-- The number of open bins recorded after any append or removal is at most
`max Lookback 0 + 1`. -/
theorem packSeq_sizes_bound {T : Type} (s : SlicePacker) (wrap : Int → Int) (items : List T)
    (weightFunc : T → Int) :
    ∃ st, packSeq s wrap weightFunc collectAll items = .ok st ∧
      ∀ n ∈ st.sizes, (n : Int) ≤ max s.Lookback 0 + 1 := by
  obtain ⟨st, hseq, _, hinv, _⟩ :=
    packSeq_collect_rule s wrap weightFunc items
      (fun _ st => (st.bins.length : Int) ≤ max s.Lookback 0 ∧
        ∀ n ∈ st.sizes, (n : Int) ≤ max s.Lookback 0 + 1)
      (by simp [PackState.init])
      (by
        intro done item later st pre b post _ hinv hsplit _ _
        refine ⟨?_, hinv.2⟩
        have h1 := hinv.1
        rw [hsplit] at h1
        simpa using h1)
      (by
        intro done item later st _ hinv _ hover
        have hle : ((st.bins.length + 1 : Nat) : Int) ≤ max s.Lookback 0 :=
          le_trans (not_lt.mp hover) (le_max_left _ _)
        refine ⟨by simpa using hle, ?_⟩
        intro n hn
        rcases List.mem_append.mp hn with hn | hn
        · exact hinv.2 n hn
        · rw [List.mem_singleton.mp hn]; omega)
      (by
        intro done item later st pre b post _ hinv _ _ hsplit _
        have hlen := congrArg List.length hsplit
        simp only [List.length_append, List.length_cons, List.length_singleton,
          List.length_nil] at hlen
        have h1 := hinv.1
        refine ⟨by simp only [List.length_append]; omega, ?_⟩
        intro n hn
        rcases List.mem_append.mp hn with hn | hn
        · rcases List.mem_append.mp hn with hn | hn
          · exact hinv.2 n hn
          · rw [List.mem_singleton.mp hn]; omega
        · rw [List.mem_singleton.mp hn]
          simp only [List.length_append]; omega)
      (by
        intro st pre b post hinv hsplit _
        have hlen := congrArg List.length hsplit
        simp only [List.length_append, List.length_cons] at hlen
        have h1 := hinv.1
        refine ⟨by simp only [List.length_append]; omega, ?_⟩
        intro n hn
        rcases List.mem_append.mp hn with hn | hn
        · exact hinv.2 n hn
        · rw [List.mem_singleton.mp hn]
          simp only [List.length_append]; omega)
  exact ⟨st, hseq, hinv.2⟩

/-- C6, as amended. For every configuration (any integer `Lookback`), every input and every
weight function, the run of `Pack` returns, and after each append to and each removal from
the open-bin list the number of open bins is at most `max(Lookback, 0) + 1`; this is
`Lookback + 1` whenever `Lookback >= 0`. -/
theorem Pack_open_bins_bounded {T : Type} (s : SlicePacker) (wrap : Int → Int)
    (items : List T) (weightFunc : T → Int) :
    ∃ st, packSeq s wrap weightFunc collectAll items = .ok st ∧
      ∀ n ∈ st.sizes, (n : Int) ≤ max s.Lookback 0 + 1 :=
  packSeq_sizes_bound s wrap items weightFunc

/-- C6 as stated fails for a negative `Lookback`: with `Lookback = -1` and one item, the
open-bin list holds one bin right after the append (`len(bins) = 1 > -1` triggers the
eviction only afterwards), and `1 <= Lookback + 1 = 0` is false. -/
theorem Pack_open_bins_counterexample :
    (packSeq ⟨5, -1, false⟩ wrapInt64 (fun _ : Nat => (1 : Int)) collectAll [7]).map
        PackState.sizes = .ok [1, 0] ∧
    ¬ (∀ n ∈ [1, 0], ((n : Nat) : Int) ≤ (-1 : Int) + 1) :=
  ⟨rfl, by decide⟩

/-! ## `PackEnd` -/

/-- The loop of `PackEnd` over the reversed list of bins appends the reversed bins. -/
theorem packEnd_loop {T : Type} (packed : List (List T)) :
    ∀ acc : List (List T),
      packed.foldl (fun result items => result ++ [items.reverse]) acc
        = acc ++ packed.map List.reverse := by
  induction packed with
  | nil => intro acc; simp
  | cons x packed ih => intro acc; simp [ih]

/-- What `PackEnd` computes from the result of `Pack` on the reversed input, and the state in
which it leaves the caller's slice. -/
theorem PackEnd_eq {T : Type} (s : SlicePacker) (wrap : Int → Int) (items : List T)
    (weightFunc : T → Int) :
    ∃ packed, Pack s wrap items.reverse weightFunc = .ok packed ∧
      packed.flatten.Perm items.reverse ∧
      PackEnd s wrap items weightFunc
        = .ok ((packed.map List.reverse).reverse, items.reverse) := by
  obtain ⟨packed, hpack, hperm⟩ := Pack_flatten_perm s wrap items.reverse weightFunc
  refine ⟨packed, hpack, hperm, ?_⟩
  simp only [PackEnd, hpack, packEnd_loop, List.nil_append, List.map_reverse]

/-- C3, as amended. For every configuration, input slice and weight function, `PackEnd`
returns, and when it returns the caller's input slice holds the input items in reversed
order: the in-place reversal done at the start of `PackEnd` is not undone. -/
theorem PackEnd_leaves_input_reversed {T : Type} (s : SlicePacker) (wrap : Int → Int)
    (items : List T) (weightFunc : T → Int) :
    ∃ result, PackEnd s wrap items weightFunc = .ok (result, items.reverse) := by
  obtain ⟨packed, _, _, h⟩ := PackEnd_eq s wrap items weightFunc
  exact ⟨_, h⟩

/-- C3 as stated fails: after `PackEnd` on the slice `[1, 2, 3]` (weights `3, 3, 2`,
`TargetWeight = 5`, `Lookback = 2`, FIFO) the caller's slice is `[3, 2, 1]`. -/
theorem PackEnd_input_counterexample :
    PackEnd ⟨5, 2, false⟩ wrapInt64 [1, 2, 3] (fun i : Nat => if i = 3 then (2 : Int) else 3)
      = .ok ([[1], [2, 3]], [3, 2, 1]) ∧
    ([3, 2, 1] : List Nat) ≠ [1, 2, 3] :=
  ⟨rfl, by decide⟩

/-- C4. For every configuration, input and weight function, `PackEnd` returns, and its
result is the one the specification describes: `Pack` run on the reversed input, then the
list of bins reversed and the items inside each bin reversed. -/
theorem PackEnd_refines_spec {T : Type} (s : SlicePacker) (wrap : Int → Int)
    (items : List T) (weightFunc : T → Int) :
    ∃ result caller, PackEnd s wrap items weightFunc = .ok (result, caller) ∧
      PackEndSpec s wrap items weightFunc = .ok result := by
  obtain ⟨packed, hpack, _, h⟩ := PackEnd_eq s wrap items weightFunc
  exact ⟨_, _, h, by simp only [PackEndSpec, hpack]⟩

/-- C5. For every configuration, input slice and weight function, `PackEnd` returns, and the
concatenation of the bins it returns is a permutation of the original input. -/
theorem PackEnd_is_permutation {T : Type} (s : SlicePacker) (wrap : Int → Int)
    (items : List T) (weightFunc : T → Int) :
    ∃ result caller, PackEnd s wrap items weightFunc = .ok (result, caller) ∧
      result.flatten.Perm items := by
  obtain ⟨packed, _, hperm, h⟩ := PackEnd_eq s wrap items weightFunc
  refine ⟨_, _, h, ?_⟩
  rw [← List.reverse_flatten]
  exact (List.reverse_perm _).trans (hperm.trans (List.reverse_perm _))

/-! ## The generator against any consumer -/

/-- Invariant rule for the generator run against any consumer: the run returns, and an
invariant kept by each step holds of the final state for the items consumed by then. -/
theorem packSeq_rule {T : Type} (s : SlicePacker) (wrap : Int → Int)
    (weightFunc : T → Int) (cont : List (List T) → Bool) (all : List T)
    (Inv : List T → PackState T → Prop)
    (h0 : Inv [] PackState.init)
    (hadd : ∀ (done : List T) (item : T) (later : List T) (st : PackState T)
        (pre : List (Bin T)) (b : Bin T) (post : List (Bin T)),
        all = done ++ item :: later → Inv done st → st.bins = pre ++ b :: post →
        b.CanAdd wrap (weightFunc item) = true →
        (∀ e ∈ pre, e.CanAdd wrap (weightFunc item) = false) →
        Inv (done ++ [item])
          { bins := pre ++ b.Add wrap item (weightFunc item) :: post,
            yielded := st.yielded, sizes := st.sizes, weighed := st.weighed ++ [item],
            evicted := st.evicted })
    (hopen : ∀ (done : List T) (item : T) (later : List T) (st : PackState T),
        all = done ++ item :: later → Inv done st →
        (∀ e ∈ st.bins, e.CanAdd wrap (weightFunc item) = false) →
        ¬ (((st.bins.length + 1 : Nat) : Int) > s.Lookback) →
        Inv (done ++ [item])
          { bins := st.bins ++
              [{ binWeight := wrap (0 + weightFunc item),
                 targetWeight := s.TargetWeight, items := [item] }],
            yielded := st.yielded, sizes := st.sizes ++ [st.bins.length + 1],
            weighed := st.weighed ++ [item],
            evicted := st.evicted })
    (hopenEvict : ∀ (done : List T) (item : T) (later : List T) (st : PackState T)
        (pre : List (Bin T)) (b : Bin T) (post : List (Bin T)),
        all = done ++ item :: later → Inv done st →
        (∀ e ∈ st.bins, e.CanAdd wrap (weightFunc item) = false) →
        (((st.bins.length + 1 : Nat) : Int) > s.Lookback) →
        st.bins ++ [{ binWeight := wrap (0 + weightFunc item),
                      targetWeight := s.TargetWeight, items := [item] }] = pre ++ b :: post →
        (s.LargestBinFirst = false → pre = []) →
        Inv (done ++ [item])
          { bins := pre ++ post, yielded := st.yielded ++ [b.items],
            sizes := st.sizes ++ [st.bins.length + 1] ++ [(pre ++ post).length],
            weighed := st.weighed ++ [item],
            evicted := st.evicted ++ [b] })
    (hdrain : ∀ (st : PackState T) (pre : List (Bin T)) (b : Bin T) (post : List (Bin T)),
        Inv all st → st.bins = pre ++ b :: post → (s.LargestBinFirst = false → pre = []) →
        Inv all { bins := pre ++ post, yielded := st.yielded ++ [b.items],
                  sizes := st.sizes ++ [(pre ++ post).length], weighed := st.weighed,
                  evicted := st.evicted ++ [b] }) :
    ∃ st taken later, packSeq s wrap weightFunc cont all = .ok st ∧ all = taken ++ later ∧
      Inv taken st := by
  obtain ⟨st1, flag1, h1, _⟩ := packItems_ok s wrap weightFunc cont all PackState.init
  obtain ⟨taken, rest, hsplit, hinv1, hrest⟩ :=
    packItems_rule s wrap weightFunc cont all Inv hadd hopen hopenEvict all [] _ _ _
      rfl h0 h1
  simp only [List.nil_append] at hinv1
  cases flag1 with
  | false =>
    exact ⟨st1, taken, rest, by simp only [packSeq, h1], hsplit, hinv1⟩
  | true =>
    have hrest' : rest = [] := hrest rfl
    subst hrest'
    simp only [List.append_nil] at hsplit
    subst hsplit
    obtain ⟨st2, flag2, h2, hinv2, _, _⟩ :=
      drainBins_rule s cont (Inv all) hdrain st1.bins.length st1 le_rfl hinv1
    exact ⟨st2, all, [], by simp only [packSeq, h1, h2], by simp, hinv2⟩

/-- The generator returns against any consumer. -/
theorem packSeq_ok {T : Type} (s : SlicePacker) (wrap : Int → Int) (weightFunc : T → Int)
    (cont : List (List T) → Bool) (items : List T) :
    ∃ st, packSeq s wrap weightFunc cont items = .ok st := by
  obtain ⟨st, _, _, h, _, _⟩ :=
    packSeq_rule s wrap weightFunc cont items (fun _ _ => True) trivial
      (fun _ _ _ _ _ _ _ _ _ _ _ _ => trivial) (fun _ _ _ _ _ _ _ _ => trivial)
      (fun _ _ _ _ _ _ _ _ _ _ _ _ _ => trivial) (fun _ _ _ _ _ _ _ => trivial)
  exact ⟨st, h⟩

/-- An eviction that returns was made on a non-empty open-bin list. -/
theorem evict_ok_ne_nil {T : Type} (s : SlicePacker) (cont : List (List T) → Bool)
    (st : PackState T) (r : PackState T × Bool) (h : evict s cont st = .ok r) :
    st.bins ≠ [] := by
  intro hnil
  simp [evict, hnil, removeBin_nil] at h

/-- The bin `removeBin` fails exactly on the empty open-bin list, and then by a panic. -/
theorem removeBin_error_iff {T : Type} (s : SlicePacker) (bins : List (Bin T)) (e : Fault) :
    removeBin s bins = .error e ↔ (bins = [] ∧ e = .panic) := by
  constructor
  · intro h
    by_cases hnil : bins = []
    · subst hnil
      rw [removeBin_nil] at h
      injection h with h
      exact ⟨rfl, h.symm⟩
    · obtain ⟨pre, b, post, _, hok, _⟩ := removeBin_split s bins hnil
      rw [hok] at h
      cases h
  · rintro ⟨rfl, rfl⟩
    exact removeBin_nil s

/-! ## No failing path -/

/-- On a non-empty slice, `slices.MaxFunc` by weight and `slices.IndexFunc` on the weight of
its result name the same position: the first bin of greatest weight. -/
theorem maxBin_position {T : Type} (bins : List (Bin T)) (hne : bins ≠ []) :
    ∃ pre b post, bins = pre ++ b :: post ∧
      MaxFunc bins (fun a b => cmpCompare a.Weight b.Weight) = .ok b ∧
      IndexFunc bins (fun e => decide (e.Weight = b.Weight)) = (pre.length : Int) ∧
      (∀ e ∈ pre, e.Weight < b.Weight) ∧ (∀ e ∈ post, e.Weight ≤ b.Weight) := by
  cases bins with
  | nil => exact absurd rfl hne
  | cons x0 rest =>
    obtain ⟨pre, m, post, hsplit, hfold, h1, h2⟩ :=
      maxFold_split rest [] x0 [] (by simp) (by simp)
    replace hsplit : x0 :: rest = pre ++ m :: post := by simpa using hsplit
    refine ⟨pre, m, post, hsplit, by simp only [MaxFunc, hfold], ?_, h1, h2⟩
    rw [hsplit]
    unfold IndexFunc
    rw [indexFuncFrom_split _ pre m post 0
      (fun e he => by simpa using ne_of_lt (h1 e he)) (by simp)]
    simp

/-- The call of `Pack` returns. -/
theorem Pack_ok {T : Type} (s : SlicePacker) (wrap : Int → Int) (items : List T)
    (weightFunc : T → Int) : ∃ out, Pack s wrap items weightFunc = .ok out := by
  obtain ⟨out, h, _⟩ := Pack_flatten_perm s wrap items weightFunc
  exact ⟨out, h⟩

/-- C15. `Pack` and `PackEnd` have no failing path: for every configuration, input and
weight function they return a value, and so does the generator against any consumer.  The
closure `removeBin` fails only on an empty open-bin list, every eviction that the generator
performs is on a non-empty list, and on a non-empty list `slices.MaxFunc` is defined and the
index found by `slices.IndexFunc` is a position of the list (never `-1`). -/
theorem Pack_has_no_failing_path {T : Type} (s : SlicePacker) (wrap : Int → Int)
    (items : List T) (weightFunc : T → Int) :
    (∃ out, Pack s wrap items weightFunc = .ok out) ∧
    (∃ result caller, PackEnd s wrap items weightFunc = .ok (result, caller)) ∧
    (∀ cont, ∃ st, packSeq s wrap weightFunc cont items = .ok st) ∧
    (∀ (bins : List (Bin T)) (e : Fault), removeBin s bins = .error e ↔ (bins = [] ∧ e = .panic)) ∧
    (∀ (cont : List (List T) → Bool) (st : PackState T) (r : PackState T × Bool),
      evict s cont st = .ok r → st.bins ≠ []) ∧
    (∀ bins : List (Bin T), bins ≠ [] →
      ∃ maxBin, MaxFunc bins (fun a b => cmpCompare a.Weight b.Weight) = .ok maxBin ∧
        0 ≤ IndexFunc bins (fun e => decide (e.Weight = maxBin.Weight)) ∧
        IndexFunc bins (fun e => decide (e.Weight = maxBin.Weight)) < (bins.length : Int)) := by
  refine ⟨Pack_ok s wrap items weightFunc, ?_, fun cont => packSeq_ok s wrap weightFunc cont items,
    removeBin_error_iff s, evict_ok_ne_nil s, ?_⟩
  · obtain ⟨packed, _, _, h⟩ := PackEnd_eq s wrap items weightFunc
    exact ⟨_, _, h⟩
  · intro bins hne
    obtain ⟨pre, b, post, hsplit, hmax, hidx, _, _⟩ := maxBin_position bins hne
    refine ⟨b, hmax, ?_, ?_⟩
    · rw [hidx]; omega
    · rw [hidx, hsplit]
      simp only [List.length_append, List.length_cons]
      omega

/-! ## Non-empty bins -/

/-- A list of non-empty lists is no longer than their concatenation. -/
theorem length_le_flatten_length {E : Type} :
    ∀ L : List (List E), (∀ y ∈ L, y ≠ []) → L.length ≤ L.flatten.length := by
  intro L
  induction L with
  | nil => intro _; simp
  | cons y L ih =>
    intro h
    have hy : 0 < y.length := List.length_pos.mpr (h y (by simp))
    have := ih (fun z hz => h z (by simp [hz]))
    simp only [List.length_cons, List.flatten_cons, List.length_append]
    omega

/-- Every bin returned by `Pack` holds an item, so there are no more bins than items. -/
theorem Pack_bins_ne_nil {T : Type} (s : SlicePacker) (wrap : Int → Int) (items : List T)
    (weightFunc : T → Int) :
    ∃ out, Pack s wrap items weightFunc = .ok out ∧ (∀ bin ∈ out, bin ≠ []) ∧
      out.length ≤ items.length := by
  obtain ⟨out, hout, hne⟩ :=
    Pack_bins_rule s wrap weightFunc items (fun _ b => b.items ≠ []) (fun y => y ≠ [])
      (fun _ _ _ _ _ h => h)
      (fun _ _ _ _ _ _ _ => by simp [Bin.Add])
      (fun _ _ _ _ => by simp)
      (fun _ _ _ _ h => h)
  obtain ⟨out', hout', hperm⟩ := Pack_flatten_perm s wrap items weightFunc
  rw [hout] at hout'
  injection hout' with hout'
  subst hout'
  refine ⟨out, hout, hne, ?_⟩
  rw [← hperm.length_eq]
  exact length_le_flatten_length out hne

/-- C19. For every configuration, input and weight function, `Pack` returns, every bin it
returns is non-empty, the number of returned bins is at most the number of input items, and
`Pack` of an empty input returns an empty list of bins. -/
theorem Pack_bins_nonempty {T : Type} (s : SlicePacker) (wrap : Int → Int) (items : List T)
    (weightFunc : T → Int) :
    (∃ out, Pack s wrap items weightFunc = .ok out ∧ (∀ bin ∈ out, bin ≠ []) ∧
      out.length ≤ items.length) ∧
    Pack s wrap ([] : List T) weightFunc = .ok [] :=
  ⟨Pack_bins_ne_nil s wrap items weightFunc, rfl⟩

/-! ## `PackEnd` against `Pack` -/

/-- C14. `PackEnd` is not a reordering of the result of `Pack`: on the items `1, 2, 3` of
weights `3, 3, 2` with `TargetWeight = 5`, `Lookback = 2` and FIFO eviction, `Pack` puts the
items `1` and `3` in one bin and `2` alone, while `PackEnd` puts `1` alone and `2` and `3` in
one bin. -/
theorem PackEnd_groups_differently :
    Pack ⟨5, 2, false⟩ wrapInt64 [1, 2, 3] (fun i : Nat => if i = 3 then (2 : Int) else 3)
      = .ok [[1, 3], [2]] ∧
    PackEnd ⟨5, 2, false⟩ wrapInt64 [1, 2, 3] (fun i : Nat => if i = 3 then (2 : Int) else 3)
      = .ok ([[1], [2, 3]], [3, 2, 1]) ∧
    (∃ bin ∈ [[1, 3], [2]], 1 ∈ bin ∧ 3 ∈ bin) ∧
    ¬ (∃ bin ∈ [[1], [2, 3]], 1 ∈ bin ∧ 3 ∈ bin) :=
  ⟨rfl, rfl, by decide, by decide⟩

/-! ## `Difference` -/

/-- The membership map built from `b` answers `true` exactly on the elements of `b`. -/
theorem difference_map (b : List String) :
    ∀ (m0 : String → Bool) (k : String),
      b.foldl (fun m item => fun k => if k = item then true else m k) m0 k
        = (m0 k || decide (k ∈ b)) := by
  induction b with
  | nil => intro m0 k; simp
  | cons x b ih =>
    intro m0 k
    rw [List.foldl_cons, ih]
    by_cases hk : k = x
    · simp [hk]
    · simp [hk]

/-- The second loop of `Difference` appends the elements that the map does not hold. -/
theorem difference_loop (m : String → Bool) (a : List String) :
    ∀ acc : List String,
      a.foldl (fun diff item => if !m item then diff ++ [item] else diff) acc
        = acc ++ a.filter (fun x => !m x) := by
  induction a with
  | nil => intro acc; simp
  | cons x a ih =>
    intro acc
    rw [List.foldl_cons, ih]
    by_cases hx : m x = true
    · simp [hx]
    · simp [hx]

/-- The result of `Difference` is `a` without the elements that occur in `b`. -/
theorem Difference_eq_filter (a b : List String) :
    Difference a b = a.filter (fun x => decide (x ∉ b)) := by
  unfold Difference
  simp only [difference_loop, List.nil_append]
  apply List.filter_congr
  intro x _
  rw [difference_map]
  simp

/-- C13. For all string slices `a` and `b`, `Difference(a, b)` is `a` with every element that
occurs in `b` removed, the others kept in order and with their multiplicities; in particular
`Difference(a, a) = []`, `Difference(a, []) = a`, and
`Difference(["a","b","c"], ["b"]) = ["a","c"]`. -/
theorem Difference_is_filter (a b : List String) :
    Difference a b = a.filter (fun x => decide (x ∉ b)) ∧
    Difference a a = [] ∧ Difference a [] = a ∧
    Difference ["a", "b", "c"] ["b"] = ["a", "c"] := by
  refine ⟨Difference_eq_filter a b, ?_, ?_, ?_⟩
  · rw [Difference_eq_filter]
    simp
  · rw [Difference_eq_filter]
    simp
  · rw [Difference_eq_filter]
    decide

/-! ## The eviction policies -/

/-- Largest-first eviction on a non-empty list: the first bin of greatest weight is returned
and removed, `slices.MaxFunc` and `slices.IndexFunc` naming the same position. -/
theorem removeBin_largest {T : Type} (s : SlicePacker) (bins : List (Bin T))
    (hpol : s.LargestBinFirst = true) (hne : bins ≠ []) :
    ∃ pre b post, bins = pre ++ b :: post ∧ removeBin s bins = .ok (b, pre ++ post) ∧
      (∀ e ∈ pre, e.Weight < b.Weight) ∧ (∀ e ∈ post, e.Weight ≤ b.Weight) ∧
      MaxFunc bins (fun a b => cmpCompare a.Weight b.Weight) = .ok b ∧
      IndexFunc bins (fun e => decide (e.Weight = b.Weight)) = (pre.length : Int) := by
  obtain ⟨pre, b, post, hsplit, hmax, hidx, h1, h2⟩ := maxBin_position bins hne
  refine ⟨pre, b, post, hsplit, ?_, h1, h2, hmax, hidx⟩
  unfold removeBin
  simp only [hpol, if_true, hmax, hidx]
  rw [hsplit, Delete_split]

/-- FIFO eviction on a non-empty list: the head is returned and removed. -/
theorem removeBin_fifo {T : Type} (s : SlicePacker) (bins : List (Bin T))
    (hpol : s.LargestBinFirst = false) (hne : bins ≠ []) :
    ∃ b rest, bins = b :: rest ∧ removeBin s bins = .ok (b, rest) := by
  cases bins with
  | nil => exact absurd rfl hne
  | cons b rest => exact ⟨b, rest, rfl, by simp [removeBin, hpol]⟩

/-- C17. On a non-empty open-bin list, with `LargestBinFirst = true`, `removeBin` returns
the bin of greatest current weight, the earliest-created one among bins of equal greatest
weight (every bin before it is strictly lighter, every bin after it is no heavier); the
element returned by `slices.MaxFunc` and the index found by `slices.IndexFunc` denote the
same position, the bin at that position is the one removed, and the other bins remain,
unchanged and in their order.  With `LargestBinFirst = false` it returns and removes the
head of the list. -/
theorem removeBin_follows_policy {T : Type} (s : SlicePacker) (bins : List (Bin T))
    (hne : bins ≠ []) :
    (s.LargestBinFirst = true →
      ∃ pre b post, bins = pre ++ b :: post ∧ removeBin s bins = .ok (b, pre ++ post) ∧
        (∀ e ∈ pre, e.Weight < b.Weight) ∧ (∀ e ∈ post, e.Weight ≤ b.Weight) ∧
        MaxFunc bins (fun a b => cmpCompare a.Weight b.Weight) = .ok b ∧
        IndexFunc bins (fun e => decide (e.Weight = b.Weight)) = (pre.length : Int)) ∧
    (s.LargestBinFirst = false →
      ∃ b rest, bins = b :: rest ∧ removeBin s bins = .ok (b, rest)) :=
  ⟨fun hpol => removeBin_largest s bins hpol hne, fun hpol => removeBin_fifo s bins hpol hne⟩

/-- C17, at an input: three open bins of weights `3, 5, 5`; largest-first eviction removes
the second one, the first of the two bins of weight `5`, and leaves the other two. -/
theorem removeBin_follows_policy_witness :
    ([⟨3, 5, [1]⟩, ⟨5, 5, [2, 3]⟩, ⟨5, 5, [4]⟩] : List (Bin Nat)) ≠ [] ∧
    removeBin ⟨5, 2, true⟩ ([⟨3, 5, [1]⟩, ⟨5, 5, [2, 3]⟩, ⟨5, 5, [4]⟩] : List (Bin Nat))
      = .ok (⟨5, 5, [2, 3]⟩, [⟨3, 5, [1]⟩, ⟨5, 5, [4]⟩]) ∧
    ∃ pre b post,
      ([⟨3, 5, [1]⟩, ⟨5, 5, [2, 3]⟩, ⟨5, 5, [4]⟩] : List (Bin Nat)) = pre ++ b :: post ∧
      removeBin ⟨5, 2, true⟩ ([⟨3, 5, [1]⟩, ⟨5, 5, [2, 3]⟩, ⟨5, 5, [4]⟩] : List (Bin Nat))
        = .ok (b, pre ++ post) ∧
      (∀ e ∈ pre, e.Weight < b.Weight) ∧ (∀ e ∈ post, e.Weight ≤ b.Weight) ∧
      MaxFunc ([⟨3, 5, [1]⟩, ⟨5, 5, [2, 3]⟩, ⟨5, 5, [4]⟩] : List (Bin Nat))
        (fun a b => cmpCompare a.Weight b.Weight) = .ok b ∧
      IndexFunc ([⟨3, 5, [1]⟩, ⟨5, 5, [2, 3]⟩, ⟨5, 5, [4]⟩] : List (Bin Nat))
        (fun e => decide (e.Weight = b.Weight)) = (pre.length : Int) :=
  ⟨by simp, rfl,
    (removeBin_follows_policy ⟨5, 2, true⟩
      ([⟨3, 5, [1]⟩, ⟨5, 5, [2, 3]⟩, ⟨5, 5, [4]⟩] : List (Bin Nat)) (by simp)).1 rfl⟩

/-! ## An input that fits in one bin -/

/-- With non-negative weights, the weights of the items consumed so far and the next one add
up to no more than the total over the input. -/
theorem sum_consumed_le {T : Type} (weightFunc : T → Int) (all done later : List T) (item : T)
    (hall : all = done ++ item :: later) (hpos : ∀ x ∈ all, 0 ≤ weightFunc x) :
    ((done ++ [item]).map weightFunc).sum ≤ (all.map weightFunc).sum := by
  have hlater : 0 ≤ (later.map weightFunc).sum := by
    apply List.sum_nonneg
    intro a ha
    obtain ⟨x, hx, rfl⟩ := List.mem_map.mp ha
    exact hpos x (by rw [hall]; simp [hx])
  rw [hall]
  simp only [List.map_append, List.map_cons, List.map_nil, List.sum_append, List.sum_cons,
    List.sum_nil]
  omega

/-- With `Lookback >= 1`, non-negative weights whose total is at most `TargetWeight` and no
overflow, a non-empty input is packed into one bin. -/
theorem Pack_all_fit {T : Type} (s : SlicePacker) (wrap : Int → Int) (items : List T)
    (weightFunc : T → Int) (hL : 1 ≤ s.Lookback) (hne : items ≠ [])
    (hpos : ∀ x ∈ items, 0 ≤ weightFunc x)
    (hsum : (items.map weightFunc).sum ≤ s.TargetWeight)
    (hno : NoOverflow wrap weightFunc items) :
    Pack s wrap items weightFunc = .ok [items] := by
  obtain ⟨st, _, hnil, hinv, hpack⟩ :=
    packSeq_collect_rule s wrap weightFunc items
      (fun done st =>
        (st.yielded = [] ∧ ((done = [] ∧ st.bins = []) ∨
          (done ≠ [] ∧ st.bins = [{ binWeight := (done.map weightFunc).sum,
                                    targetWeight := s.TargetWeight, items := done }]))) ∨
        (done = items ∧ st.yielded = [items] ∧ st.bins = []))
      (Or.inl ⟨rfl, Or.inl ⟨rfl, rfl⟩⟩)
      (by
        intro done item later st pre b post hall hinv hsplit hb _
        rcases hinv with ⟨hy, hbins⟩ | ⟨hd, _, _⟩
        · rcases hbins with ⟨_, hb0⟩ | ⟨_, hb0⟩
          · rw [hb0] at hsplit; simp at hsplit
          · rw [hb0] at hsplit
            obtain ⟨rfl, rfl, rfl⟩ := singleton_split _ _ _ _ hsplit
            obtain ⟨hex, hitems, _, _⟩ :=
              exact_add wrap weightFunc s.TargetWeight items done later item
                { binWeight := (done.map weightFunc).sum, targetWeight := s.TargetWeight,
                  items := done } hno hall ⟨rfl, rfl⟩ (List.Sublist.refl _)
            refine Or.inl ⟨hy, Or.inr ⟨by simp, ?_⟩⟩
            have hw := hex.2
            rw [hitems] at hw
            show [Bin.Add wrap _ item (weightFunc item)] = _
            simp only [Bin.Add, List.cons.injEq, and_true, Bin.mk.injEq, true_and]
            simpa [Bin.Add] using hw
        · exfalso
          have := congrArg List.length hall
          rw [hd] at this
          simp at this)
      (by
        intro done item later st hall hinv hnone hover
        rcases hinv with ⟨hy, hbins⟩ | ⟨hd, _, _⟩
        · rcases hbins with ⟨hd0, hb0⟩ | ⟨_, hb0⟩
          · subst hd0
            refine Or.inl ⟨hy, Or.inr ⟨by simp, ?_⟩⟩
            have hw := (exact_new wrap weightFunc s.TargetWeight items [] later item hno hall).1
            show st.bins ++ [_] = _
            rw [hb0, hw]
            simp
          · exfalso
            obtain ⟨_, _, _, hcan⟩ :=
              exact_add wrap weightFunc s.TargetWeight items done later item
                { binWeight := (done.map weightFunc).sum, targetWeight := s.TargetWeight,
                  items := done } hno hall ⟨rfl, rfl⟩ (List.Sublist.refl _)
            have hfit : ((done ++ [item]).map weightFunc).sum ≤ s.TargetWeight :=
              le_trans (sum_consumed_le weightFunc items done later item hall hpos) hsum
            have := hnone
              { binWeight := (done.map weightFunc).sum, targetWeight := s.TargetWeight,
                items := done } (by rw [hb0]; simp)
            rw [hcan.mpr hfit] at this
            exact absurd this (by decide)
        · exfalso
          have := congrArg List.length hall
          rw [hd] at this
          simp at this)
      (by
        intro done item later st pre b post hall hinv hnone hover _ _
        exfalso
        rcases hinv with ⟨hy, hbins⟩ | ⟨hd, _, _⟩
        · rcases hbins with ⟨_, hb0⟩ | ⟨_, hb0⟩
          · rw [hb0] at hover
            simp only [List.length_nil, zero_add, Nat.cast_one] at hover
            omega
          · obtain ⟨_, _, _, hcan⟩ :=
              exact_add wrap weightFunc s.TargetWeight items done later item
                { binWeight := (done.map weightFunc).sum, targetWeight := s.TargetWeight,
                  items := done } hno hall ⟨rfl, rfl⟩ (List.Sublist.refl _)
            have hfit : ((done ++ [item]).map weightFunc).sum ≤ s.TargetWeight :=
              le_trans (sum_consumed_le weightFunc items done later item hall hpos) hsum
            have := hnone
              { binWeight := (done.map weightFunc).sum, targetWeight := s.TargetWeight,
                items := done } (by rw [hb0]; simp)
            rw [hcan.mpr hfit] at this
            exact absurd this (by decide)
        · have := congrArg List.length hall
          rw [hd] at this
          simp at this)
      (by
        intro st pre b post hinv hsplit _
        rcases hinv with ⟨hy, hbins⟩ | ⟨_, _, hb0⟩
        · rcases hbins with ⟨_, hb0⟩ | ⟨_, hb0⟩
          · rw [hb0] at hsplit; simp at hsplit
          · rw [hb0] at hsplit
            obtain ⟨rfl, rfl, rfl⟩ := singleton_split _ _ _ _ hsplit
            exact Or.inr ⟨rfl, by simp [hy], rfl⟩
        · rw [hb0] at hsplit; simp at hsplit)
  rw [hpack]
  rcases hinv with ⟨_, hbins⟩ | ⟨_, hy, _⟩
  · rcases hbins with ⟨hd, _⟩ | ⟨_, hb0⟩
    · exact absurd hd hne
    · rw [hb0] at hnil; simp at hnil
  · rw [hy]

/-- C11. For every configuration with `Lookback >= 1` (either eviction policy; `TargetWeight`
an `int64`, so below `2^63`), every non-empty input and every weight function with
non-negative weights whose total over the input is at most `TargetWeight`, `Pack`, with
`int64` arithmetic, returns exactly one bin, holding all the input items in input order. -/
theorem Pack_single_bin_when_all_fit {T : Type} (s : SlicePacker) (items : List T)
    (weightFunc : T → Int) (hrange : s.TargetWeight < 2 ^ 63) (hL : 1 ≤ s.Lookback)
    (hne : items ≠ []) (hpos : ∀ x ∈ items, 0 ≤ weightFunc x)
    (hsum : (items.map weightFunc).sum ≤ s.TargetWeight) :
    Pack s wrapInt64 items weightFunc = .ok [items] :=
  Pack_all_fit s wrapInt64 items weightFunc hL hne hpos hsum
    (noOverflow_wrapInt64 weightFunc items hpos (lt_of_le_of_lt hsum hrange))

/-- C11, at the input of scenario B: weights `[1,1,1]`, `TargetWeight = 10`, `Lookback = 1`
give the one bin `[[i1,i2,i3]]`. -/
theorem Pack_single_bin_when_all_fit_witness :
    (10 : Int) < 2 ^ 63 ∧ (1 : Int) ≤ 1 ∧ ([1, 2, 3] : List Nat) ≠ [] ∧
    (∀ x ∈ [1, 2, 3], 0 ≤ (fun _ : Nat => (1 : Int)) x) ∧
    (([1, 2, 3] : List Nat).map (fun _ : Nat => (1 : Int))).sum ≤ 10 ∧
    Pack ⟨10, 1, false⟩ wrapInt64 [1, 2, 3] (fun _ : Nat => (1 : Int)) = .ok [[1, 2, 3]] :=
  ⟨by decide, by decide, by decide, by decide, by decide,
    Pack_single_bin_when_all_fit ⟨10, 1, false⟩ [1, 2, 3] (fun _ : Nat => (1 : Int))
      (by decide) (by decide) (by decide) (by decide) (by decide)⟩

/-! ## Oversize items -/

/-- With non-negative weights and no overflow, a returned bin that holds an item heavier
than `TargetWeight` holds that item only. -/
theorem Pack_oversize_alone {T : Type} (s : SlicePacker) (wrap : Int → Int) (items : List T)
    (weightFunc : T → Int) (hpos : ∀ x ∈ items, 0 ≤ weightFunc x)
    (hno : NoOverflow wrap weightFunc items) :
    ∃ out, Pack s wrap items weightFunc = .ok out ∧
      ∀ bin ∈ out, ∀ x ∈ bin, s.TargetWeight < weightFunc x → bin = [x] :=
  Pack_bins_rule s wrap weightFunc items
    (fun done b => b.Exact weightFunc s.TargetWeight ∧ b.items.Sublist done ∧
      ∀ x ∈ b.items, s.TargetWeight < weightFunc x → b.items = [x])
    (fun y => ∀ x ∈ y, s.TargetWeight < weightFunc x → y = [x])
    (fun done item _ _ _ h =>
      ⟨h.1, h.2.1.trans (List.sublist_append_left done [item]), h.2.2⟩)
    (fun done item later b hall h hb => by
      obtain ⟨hex, hitems, hsub, hcan⟩ :=
        exact_add wrap weightFunc s.TargetWeight items done later item b hno hall h.1 h.2.1
      refine ⟨hex, by rw [hitems]; exact hsub, ?_⟩
      rw [hitems]
      intro x hx hbig
      exfalso
      have hle := hcan.mp hb
      have hin : ∀ y ∈ b.items ++ [item], y ∈ items := by
        intro y hy
        rw [hall]
        have : done ++ item :: later = (done ++ [item]) ++ later := by simp
        rw [this]
        exact List.mem_append_left _ (hsub.subset hy)
      have hnn : ∀ a ∈ (b.items ++ [item]).map weightFunc, 0 ≤ a := by
        intro a ha
        obtain ⟨y, hy, rfl⟩ := List.mem_map.mp ha
        exact hpos y (hin y hy)
      have hx' : weightFunc x ≤ ((b.items ++ [item]).map weightFunc).sum :=
        List.single_le_sum hnn _ (List.mem_map_of_mem weightFunc hx)
      omega)
    (fun done item later hall =>
      ⟨(exact_new wrap weightFunc s.TargetWeight items done later item hno hall).2,
        List.sublist_append_right done [item], fun x hx _ => by
          rw [List.mem_singleton.mp hx]⟩)
    (fun _ _ _ _ h => h.2.2)

/-- C12, as amended. For every configuration, every input and every weight function with
non-negative weights for which no sum of weights overflows (in particular on exact
integers), `Pack` returns, and each input item whose weight is greater than `TargetWeight`
appears in the output as the only item of its bin. -/
theorem Pack_oversize_item_alone {T : Type} (s : SlicePacker) (wrap : Int → Int)
    (items : List T) (weightFunc : T → Int) (hpos : ∀ x ∈ items, 0 ≤ weightFunc x)
    (hno : NoOverflow wrap weightFunc items) :
    ∃ out, Pack s wrap items weightFunc = .ok out ∧
      (∀ bin ∈ out, ∀ x ∈ bin, s.TargetWeight < weightFunc x → bin = [x]) ∧
      (∀ x ∈ items, s.TargetWeight < weightFunc x → [x] ∈ out) := by
  obtain ⟨out, hout, halone⟩ := Pack_oversize_alone s wrap items weightFunc hpos hno
  obtain ⟨out', hout', hperm⟩ := Pack_flatten_perm s wrap items weightFunc
  rw [hout] at hout'
  injection hout' with hout'
  subst hout'
  refine ⟨out, hout, halone, ?_⟩
  intro x hx hbig
  obtain ⟨bin, hbin, hxbin⟩ := List.mem_flatten.mp (hperm.mem_iff.mpr hx)
  rw [← halone bin hbin x hxbin hbig]
  exact hbin

/-- C12 as amended, at the input of scenario C: the one item of weight `9` with
`TargetWeight = 5`, under `int64` arithmetic, gives the single bin `[[i1]]`. -/
theorem Pack_oversize_item_alone_witness :
    (∀ x ∈ [1], 0 ≤ (fun _ : Nat => (9 : Int)) x) ∧
    NoOverflow wrapInt64 (fun _ : Nat => (9 : Int)) [1] ∧
    ∃ out, Pack ⟨5, 1, false⟩ wrapInt64 [1] (fun _ : Nat => (9 : Int)) = .ok out ∧
      (∀ bin ∈ out, ∀ x ∈ bin, (5 : Int) < (fun _ : Nat => (9 : Int)) x → bin = [x]) ∧
      (∀ x ∈ [1], (5 : Int) < (fun _ : Nat => (9 : Int)) x → [x] ∈ out) :=
  have hpos : ∀ x ∈ [1], 0 ≤ (fun _ : Nat => (9 : Int)) x := by decide
  have hno : NoOverflow wrapInt64 (fun _ : Nat => (9 : Int)) [1] :=
    noOverflow_wrapInt64 _ _ hpos (by decide)
  ⟨hpos, hno, Pack_oversize_item_alone ⟨5, 1, false⟩ wrapInt64 [1] _ hpos hno⟩

/-- C12 as stated fails under `int64` arithmetic: with `TargetWeight = 5`, `Lookback = 1`,
FIFO, and two items of weight `2^62` (non-negative, each greater than `TargetWeight`), the
sum `2^62 + 2^62` computed by `CanAdd` wraps to `-2^63 <= 5`, the second item joins the bin
of the first, and `Pack` returns one bin of two oversize items. -/
theorem Pack_oversize_counterexample :
    (∀ x ∈ [1, 2], 0 ≤ (fun _ : Nat => (2 : Int) ^ 62) x) ∧
    (5 : Int) < (fun _ : Nat => (2 : Int) ^ 62) 1 ∧
    Pack ⟨5, 1, false⟩ wrapInt64 [1, 2] (fun _ : Nat => (2 : Int) ^ 62) = .ok [[1, 2]] ∧
    ¬ ([1] ∈ [[1, 2]]) :=
  ⟨by decide, by decide, rfl, by decide⟩

/-! ## FIFO emits in creation order -/

/-- Under FIFO eviction the first items of the returned bins, in the order the bins are
returned, form a subsequence of the input. -/
theorem Pack_fifo_heads {T : Type} (s : SlicePacker) (wrap : Int → Int) (items : List T)
    (weightFunc : T → Int) (hfifo : s.LargestBinFirst = false) :
    ∃ out, Pack s wrap items weightFunc = .ok out ∧
      (out.filterMap List.head?).Sublist items := by
  obtain ⟨st, _, hnil, hinv, hpack⟩ :=
    packSeq_collect_rule s wrap weightFunc items
      (fun done st => (∀ b ∈ st.bins, b.items ≠ []) ∧
        ((st.yielded ++ st.bins.map Bin.items).filterMap List.head?).Sublist done)
      ⟨by simp [PackState.init], by simp [PackState.init]⟩
      (by
        intro done item later st pre b post _ hinv hsplit _ _
        have hne : ∀ e ∈ pre ++ b :: post, e.items ≠ [] := by rw [← hsplit]; exact hinv.1
        refine ⟨?_, ?_⟩
        · intro c hc
          rcases List.mem_append.mp hc with hc | hc
          · exact hne c (by simp [hc])
          · rcases List.mem_cons.mp hc with rfl | hc
            · simp [Bin.Add]
            · exact hne c (by simp [hc])
        · have h2 := hinv.2
          rw [hsplit] at h2
          have hhead : (b.Add wrap item (weightFunc item)).items.head? = b.items.head? := by
            show (b.items ++ [item]).head? = _
            exact List.head?_append_of_ne_nil _ (hne b (by simp))
          have heq : ((st.yielded ++ (pre ++ b.Add wrap item (weightFunc item) :: post).map
              Bin.items).filterMap List.head?)
              = ((st.yielded ++ (pre ++ b :: post).map Bin.items).filterMap List.head?) := by
            simp only [List.map_append, List.map_cons, List.filterMap_append,
              List.filterMap_cons, hhead]
          show ((st.yielded ++ (pre ++ b.Add wrap item (weightFunc item) :: post).map
              Bin.items).filterMap List.head?).Sublist _
          rw [heq]
          exact h2.trans (List.sublist_append_left done [item]))
      (by
        intro done item later st _ hinv _ _
        refine ⟨?_, ?_⟩
        · intro c hc
          rcases List.mem_append.mp hc with hc | hc
          · exact hinv.1 c hc
          · rw [List.mem_singleton.mp hc]; simp
        · show ((st.yielded ++ (st.bins ++ [_]).map Bin.items).filterMap List.head?).Sublist _
          have := hinv.2.append (List.Sublist.refl [item])
          simpa [List.filterMap_append] using this)
      (by
        intro done item later st pre b post _ hinv _ _ hsplit hpre
        have hpre' := hpre hfifo
        subst hpre'
        have hsplit' : b :: post = st.bins ++
            [({ binWeight := wrap (0 + weightFunc item), targetWeight := s.TargetWeight,
                items := [item] } : Bin T)] := by simpa using hsplit.symm
        refine ⟨?_, ?_⟩
        · intro c hc
          have hc' : c ∈ b :: post := by simp at hc; simp [hc]
          rw [hsplit'] at hc'
          rcases List.mem_append.mp hc' with hc' | hc'
          · exact hinv.1 c hc'
          · rw [List.mem_singleton.mp hc']; simp
        · have heq : (st.yielded ++ [b.items]) ++ ([] ++ post).map Bin.items
              = st.yielded ++ (b :: post).map Bin.items := by simp
          show (((st.yielded ++ [b.items]) ++ ([] ++ post).map Bin.items).filterMap
            List.head?).Sublist _
          rw [heq, hsplit']
          have := hinv.2.append (List.Sublist.refl [item])
          simpa [List.filterMap_append] using this)
      (by
        intro st pre b post hinv hsplit hpre
        have hpre' := hpre hfifo
        subst hpre'
        refine ⟨fun c hc => hinv.1 c (by rw [hsplit]; simp at hc; simp [hc]), ?_⟩
        have heq : (st.yielded ++ [b.items]) ++ ([] ++ post).map Bin.items
            = st.yielded ++ st.bins.map Bin.items := by rw [hsplit]; simp
        show (((st.yielded ++ [b.items]) ++ ([] ++ post).map Bin.items).filterMap
          List.head?).Sublist _
        rw [heq]
        exact hinv.2)
  refine ⟨st.yielded, hpack, ?_⟩
  have := hinv.2
  rw [hnil] at this
  simpa using this

/-- C20. Under FIFO eviction, for every `TargetWeight`, `Lookback`, input and weight
function, `Pack` returns its bins in the order they were created: every returned bin is
non-empty, and the first items of the returned bins, taken bin after bin, form a subsequence
of the input. -/
theorem Pack_fifo_creation_order {T : Type} (s : SlicePacker) (wrap : Int → Int)
    (items : List T) (weightFunc : T → Int) (hfifo : s.LargestBinFirst = false) :
    ∃ out, Pack s wrap items weightFunc = .ok out ∧ (∀ bin ∈ out, bin ≠ []) ∧
      (out.filterMap List.head?).Sublist items := by
  obtain ⟨out, hout, hheads⟩ := Pack_fifo_heads s wrap items weightFunc hfifo
  obtain ⟨out', hout', hne, _⟩ := Pack_bins_ne_nil s wrap items weightFunc
  rw [hout] at hout'
  injection hout' with hout'
  subst hout'
  exact ⟨out, hout, hne, hheads⟩

/-- C20, at an input: items `1, 2, 3` of weights `3, 3, 2` with `TargetWeight = 5`,
`Lookback = 2`, FIFO, under `int64` arithmetic. -/
theorem Pack_fifo_creation_order_witness :
    (⟨5, 2, false⟩ : SlicePacker).LargestBinFirst = false ∧
    ∃ out, Pack ⟨5, 2, false⟩ wrapInt64 [1, 2, 3] (fun i : Nat => if i = 3 then (2 : Int) else 3)
        = .ok out ∧ (∀ bin ∈ out, bin ≠ []) ∧
      (out.filterMap List.head?).Sublist [1, 2, 3] :=
  ⟨rfl, Pack_fifo_creation_order ⟨5, 2, false⟩ wrapInt64 [1, 2, 3] _ rfl⟩

/-! ## The running total of a bin -/

/-- A sequence of method calls on a bin whose total is the sum of the weights `W0` leaves
the sum of `W0` and of the weights added, as long as no running total overflows. -/
theorem bin_calls_exact {T : Type} (wrap : Int → Int) :
    ∀ (cs : List (BinCall T)) (b0 : Bin T) (W0 : List Int), b0.binWeight = W0.sum →
      (∀ n, wrap ((W0 ++ BinCall.addedWeights cs).take n).sum
        = ((W0 ++ BinCall.addedWeights cs).take n).sum) →
      (cs.foldl (Bin.call wrap) b0).binWeight = (W0 ++ BinCall.addedWeights cs).sum ∧
      (cs.foldl (Bin.call wrap) b0).items = b0.items ++ BinCall.addedItems cs ∧
      (cs.foldl (Bin.call wrap) b0).targetWeight = b0.targetWeight := by
  intro cs
  induction cs with
  | nil =>
    intro b0 W0 h0 _
    simp [BinCall.addedWeights, BinCall.addedItems, h0]
  | cons c cs ih =>
    intro b0 W0 h0 hno
    cases c with
    | add x w =>
      have hstep : (b0.Add wrap x w).binWeight = (W0 ++ [w]).sum := by
        have h1 := hno (W0.length + 1)
        have htake : (W0 ++ BinCall.addedWeights (BinCall.add x w :: cs)).take (W0.length + 1)
            = W0 ++ [w] := by
          have : W0 ++ BinCall.addedWeights (BinCall.add x w :: cs)
              = (W0 ++ [w]) ++ BinCall.addedWeights cs := by
            simp [BinCall.addedWeights]
          rw [this]
          exact List.take_left' (by simp)
        rw [htake] at h1
        show wrap (b0.binWeight + w) = _
        rw [h0]
        simpa using h1
      have hno' : ∀ n, wrap (((W0 ++ [w]) ++ BinCall.addedWeights cs).take n).sum
          = (((W0 ++ [w]) ++ BinCall.addedWeights cs).take n).sum := by
        intro n
        have := hno n
        simpa [BinCall.addedWeights] using this
      obtain ⟨hw, hi, ht⟩ := ih (b0.Add wrap x w) (W0 ++ [w]) hstep hno'
      refine ⟨?_, ?_, ?_⟩
      · simpa [Bin.call, BinCall.addedWeights] using hw
      · simpa [Bin.call, BinCall.addedItems, Bin.Add] using hi
      · simpa [Bin.call, Bin.Add] using ht
    | weight =>
      have := ih b0 W0 h0 (by simpa [BinCall.addedWeights] using hno)
      simpa [Bin.call, BinCall.addedWeights, BinCall.addedItems] using this
    | canAdd w =>
      have := ih b0 W0 h0 (by simpa [BinCall.addedWeights] using hno)
      simpa [Bin.call, BinCall.addedWeights, BinCall.addedItems] using this

/-- What does not overflow on an input does not overflow on an initial part of it. -/
theorem noOverflow_append_left {T : Type} (wrap : Int → Int) (weightFunc : T → Int)
    (done later : List T) (hno : NoOverflow wrap weightFunc (done ++ later)) :
    NoOverflow wrap weightFunc done :=
  fun sub hsub => hno sub (hsub.trans (List.sublist_append_left done later))

/-- The state stays in step when the item joins an open bin. -/
theorem exactInv_add {T : Type} (s : SlicePacker) (wrap : Int → Int) (weightFunc : T → Int)
    (all : List T) (hno : NoOverflow wrap weightFunc all)
    (done : List T) (item : T) (later : List T) (st : PackState T)
    (pre : List (Bin T)) (b : Bin T) (post : List (Bin T))
    (hall : all = done ++ item :: later) (hinv : ExactInv weightFunc s.TargetWeight done st)
    (hsplit : st.bins = pre ++ b :: post) :
    ExactInv weightFunc s.TargetWeight (done ++ [item])
      { bins := pre ++ b.Add wrap item (weightFunc item) :: post,
        yielded := st.yielded, sizes := st.sizes, weighed := st.weighed ++ [item],
        evicted := st.evicted } := by
  have hP : ∀ e ∈ pre ++ b :: post, e.Exact weightFunc s.TargetWeight ∧ e.items.Sublist done := by
    rw [← hsplit]; exact hinv.1
  refine ⟨?_, hinv.2.1, hinv.2.2⟩
  intro c hc
  have hmono : ∀ e ∈ pre ++ b :: post,
      e.Exact weightFunc s.TargetWeight ∧ e.items.Sublist (done ++ [item]) :=
    fun e he => ⟨(hP e he).1, (hP e he).2.trans (List.sublist_append_left done [item])⟩
  rcases List.mem_append.mp hc with hc | hc
  · exact hmono c (by simp [hc])
  · rcases List.mem_cons.mp hc with rfl | hc
    · obtain ⟨hex, hitems, hsub, _⟩ :=
        exact_add wrap weightFunc s.TargetWeight all done later item b hno hall
          (hP b (by simp)).1 (hP b (by simp)).2
      exact ⟨hex, by rw [hitems]; exact hsub⟩
    · exact hmono c (by simp [hc])

/-- The open bins stay in step when a bin is opened for the item. -/
theorem exactInv_open_bins {T : Type} (s : SlicePacker) (wrap : Int → Int)
    (weightFunc : T → Int) (all : List T) (hno : NoOverflow wrap weightFunc all)
    (done : List T) (item : T) (later : List T) (st : PackState T)
    (hall : all = done ++ item :: later) (hinv : ExactInv weightFunc s.TargetWeight done st) :
    ∀ c ∈ st.bins ++ [({ binWeight := wrap (0 + weightFunc item),
                         targetWeight := s.TargetWeight, items := [item] } : Bin T)],
      c.Exact weightFunc s.TargetWeight ∧ c.items.Sublist (done ++ [item]) := by
  intro c hc
  rcases List.mem_append.mp hc with hc | hc
  · exact ⟨(hinv.1 c hc).1, (hinv.1 c hc).2.trans (List.sublist_append_left done [item])⟩
  · rw [List.mem_singleton.mp hc]
    exact ⟨(exact_new wrap weightFunc s.TargetWeight all done later item hno hall).2,
      List.sublist_append_right done [item]⟩

/-- The state stays in step when a bin is opened for the item and the window is not full. -/
theorem exactInv_open {T : Type} (s : SlicePacker) (wrap : Int → Int)
    (weightFunc : T → Int) (all : List T) (hno : NoOverflow wrap weightFunc all)
    (done : List T) (item : T) (later : List T) (st : PackState T)
    (hall : all = done ++ item :: later) (hinv : ExactInv weightFunc s.TargetWeight done st) :
    ExactInv weightFunc s.TargetWeight (done ++ [item])
      { bins := st.bins ++
          [{ binWeight := wrap (0 + weightFunc item),
             targetWeight := s.TargetWeight, items := [item] }],
        yielded := st.yielded, sizes := st.sizes ++ [st.bins.length + 1],
        weighed := st.weighed ++ [item],
        evicted := st.evicted } :=
  ⟨exactInv_open_bins s wrap weightFunc all hno done item later st hall hinv,
    hinv.2.1, hinv.2.2⟩

/-- The state stays in step when a bin is opened for the item and a bin is evicted. -/
theorem exactInv_openEvict {T : Type} (s : SlicePacker) (wrap : Int → Int)
    (weightFunc : T → Int) (all : List T) (hno : NoOverflow wrap weightFunc all)
    (done : List T) (item : T) (later : List T) (st : PackState T)
    (pre : List (Bin T)) (b : Bin T) (post : List (Bin T))
    (hall : all = done ++ item :: later) (hinv : ExactInv weightFunc s.TargetWeight done st)
    (hsplit : st.bins ++ [{ binWeight := wrap (0 + weightFunc item),
                            targetWeight := s.TargetWeight, items := [item] }]
      = pre ++ b :: post) :
    ExactInv weightFunc s.TargetWeight (done ++ [item])
      { bins := pre ++ post, yielded := st.yielded ++ [b.items],
        sizes := st.sizes ++ [st.bins.length + 1] ++ [(pre ++ post).length],
        weighed := st.weighed ++ [item],
        evicted := st.evicted ++ [b] } := by
  have hP := exactInv_open_bins s wrap weightFunc all hno done item later st hall hinv
  rw [hsplit] at hP
  refine ⟨?_, ?_, ?_⟩
  · intro c hc
    rcases List.mem_append.mp hc with hc | hc
    · exact hP c (by simp [hc])
    · exact hP c (by simp [hc])
  · intro c hc
    rcases List.mem_append.mp hc with hc | hc
    · exact hinv.2.1 c hc
    · rw [List.mem_singleton.mp hc]
      exact (hP b (by simp)).1
  · show st.yielded ++ [b.items] = (st.evicted ++ [b]).map Bin.items
    rw [hinv.2.2]
    simp

/-- The state stays in step when the drain loop evicts a bin. -/
theorem exactInv_drain {T : Type} (weightFunc : T → Int) (target : Int) (all : List T)
    (st : PackState T) (pre : List (Bin T)) (b : Bin T) (post : List (Bin T))
    (hinv : ExactInv weightFunc target all st) (hsplit : st.bins = pre ++ b :: post) :
    ExactInv weightFunc target all
      { bins := pre ++ post, yielded := st.yielded ++ [b.items],
        sizes := st.sizes ++ [(pre ++ post).length], weighed := st.weighed,
        evicted := st.evicted ++ [b] } := by
  have hP : ∀ e ∈ pre ++ b :: post, e.Exact weightFunc target ∧ e.items.Sublist all := by
    rw [← hsplit]; exact hinv.1
  refine ⟨?_, ?_, ?_⟩
  · intro c hc
    rcases List.mem_append.mp hc with hc | hc
    · exact hP c (by simp [hc])
    · exact hP c (by simp [hc])
  · intro c hc
    rcases List.mem_append.mp hc with hc | hc
    · exact hinv.2.1 c hc
    · rw [List.mem_singleton.mp hc]
      exact (hP b (by simp)).1
  · show st.yielded ++ [b.items] = (st.evicted ++ [b]).map Bin.items
    rw [hinv.2.2]
    simp

/-- The state is in step at entry. -/
theorem exactInv_init {T : Type} (weightFunc : T → Int) (target : Int) :
    ExactInv weightFunc target [] (PackState.init : PackState T) :=
  ⟨by simp [PackState.init], by simp [PackState.init], rfl⟩

/-- When nothing overflows, the state of the generator is in step with the items consumed
after the item loop has run on any initial part of the input, against any consumer. -/
theorem packItems_exactInv {T : Type} (s : SlicePacker) (wrap : Int → Int)
    (weightFunc : T → Int) (cont : List (List T) → Bool) (items done later : List T)
    (hno : NoOverflow wrap weightFunc items) (hsplit : items = done ++ later)
    (st : PackState T) (flag : Bool)
    (h : packItems s wrap weightFunc cont done PackState.init = .ok (st, flag)) :
    ∃ taken, ExactInv weightFunc s.TargetWeight taken st := by
  have hno' : NoOverflow wrap weightFunc done :=
    noOverflow_append_left wrap weightFunc done later (hsplit ▸ hno)
  obtain ⟨taken, _, _, hinv, _⟩ :=
    packItems_rule s wrap weightFunc cont done (ExactInv weightFunc s.TargetWeight)
      (fun d item l st pre b post hall hinv hs _ _ =>
        exactInv_add s wrap weightFunc done hno' d item l st pre b post hall hinv hs)
      (fun d item l st hall hinv _ _ =>
        exactInv_open s wrap weightFunc done hno' d item l st hall hinv)
      (fun d item l st pre b post hall hinv _ _ hs _ =>
        exactInv_openEvict s wrap weightFunc done hno' d item l st pre b post hall hinv hs)
      done [] _ _ _ rfl (exactInv_init weightFunc s.TargetWeight) h
  exact ⟨[] ++ taken, hinv⟩

/-- When nothing overflows, the generator run against any consumer ends in a state in step
with the items consumed. -/
theorem packSeq_exactInv {T : Type} (s : SlicePacker) (wrap : Int → Int)
    (weightFunc : T → Int) (cont : List (List T) → Bool) (items : List T)
    (hno : NoOverflow wrap weightFunc items) :
    ∃ st taken, packSeq s wrap weightFunc cont items = .ok st ∧
      ExactInv weightFunc s.TargetWeight taken st := by
  obtain ⟨st, taken, _, h, _, hinv⟩ :=
    packSeq_rule s wrap weightFunc cont items (ExactInv weightFunc s.TargetWeight)
      (exactInv_init weightFunc s.TargetWeight)
      (fun d item l st pre b post hall hinv hs _ _ =>
        exactInv_add s wrap weightFunc items hno d item l st pre b post hall hinv hs)
      (fun d item l st hall hinv _ _ =>
        exactInv_open s wrap weightFunc items hno d item l st hall hinv)
      (fun d item l st pre b post hall hinv _ _ hs _ =>
        exactInv_openEvict s wrap weightFunc items hno d item l st pre b post hall hinv hs)
      (fun st pre b post hinv hs _ =>
        exactInv_drain weightFunc s.TargetWeight items st pre b post hinv hs)
  exact ⟨st, taken, h, hinv⟩

/-- C18. Starting from an empty `Bin`, after any sequence of calls of `Add`, `Weight` and
`CanAdd` in which no running total overflows (in particular on exact integers), `Weight()`
is the sum of the weights passed to `Add` and the items are the added items in call order;
`Weight` and `CanAdd` leave the bin unchanged.  Consequently, when no sum of weights over
the input overflows, every bin that the generator of `Pack` holds open or has evicted, after
any initial part of the input and at its return against any consumer, has `binWeight` equal
to the sum of `weightFunc` over its items, and the bins handed out are the items of the
evicted bins. -/
theorem Bin_weight_is_sum_of_items {T : Type} (s : SlicePacker) (wrap : Int → Int)
    (items : List T) (weightFunc : T → Int) (hno : NoOverflow wrap weightFunc items) :
    (∀ (target : Int) (cs : List (BinCall T)),
      (∀ n, wrap ((BinCall.addedWeights cs).take n).sum
        = ((BinCall.addedWeights cs).take n).sum) →
      (cs.foldl (Bin.call wrap)
          { binWeight := 0, targetWeight := target, items := [] }).Weight
        = (BinCall.addedWeights cs).sum ∧
      (cs.foldl (Bin.call wrap)
          { binWeight := 0, targetWeight := target, items := [] }).items
        = BinCall.addedItems cs) ∧
    (∀ (b : Bin T) (w : Int),
      Bin.call wrap b BinCall.weight = b ∧ Bin.call wrap b (BinCall.canAdd w) = b) ∧
    (∀ (cont : List (List T) → Bool) (done later : List T) (st : PackState T) (flag : Bool),
      items = done ++ later →
      packItems s wrap weightFunc cont done PackState.init = .ok (st, flag) →
      (∀ b, b ∈ st.bins ∨ b ∈ st.evicted → b.Weight = (b.items.map weightFunc).sum) ∧
        st.yielded = st.evicted.map Bin.items) ∧
    (∀ cont : List (List T) → Bool,
      ∃ st, packSeq s wrap weightFunc cont items = .ok st ∧
        (∀ b, b ∈ st.bins ∨ b ∈ st.evicted → b.Weight = (b.items.map weightFunc).sum) ∧
        st.yielded = st.evicted.map Bin.items) := by
  refine ⟨?_, fun _ _ => ⟨rfl, rfl⟩, ?_, ?_⟩
  · intro target cs hcs
    obtain ⟨hw, hi, _⟩ :=
      bin_calls_exact wrap cs { binWeight := 0, targetWeight := target, items := [] } []
        rfl (by simpa using hcs)
    exact ⟨by simpa [Bin.Weight] using hw, by simpa using hi⟩
  · intro cont done later st flag hsplit h
    obtain ⟨taken, hinv⟩ :=
      packItems_exactInv s wrap weightFunc cont items done later hno hsplit st flag h
    refine ⟨?_, hinv.2.2⟩
    rintro b (hb | hb)
    · exact (hinv.1 b hb).1.2
    · exact (hinv.2.1 b hb).2
  · intro cont
    obtain ⟨st, taken, h, hinv⟩ := packSeq_exactInv s wrap weightFunc cont items hno
    refine ⟨st, h, ?_, hinv.2.2⟩
    rintro b (hb | hb)
    · exact (hinv.1 b hb).1.2
    · exact (hinv.2.1 b hb).2

/-- C18, at an input: items `1, 2, 3` of weights `3, 3, 2` with `TargetWeight = 5`,
`Lookback = 2`, FIFO, under `int64` arithmetic, collected by `slices.Collect`. -/
theorem Bin_weight_is_sum_of_items_witness :
    NoOverflow wrapInt64 (fun i : Nat => if i = 3 then (2 : Int) else 3) [1, 2, 3] ∧
    ∃ st, packSeq ⟨5, 2, false⟩ wrapInt64 (fun i : Nat => if i = 3 then (2 : Int) else 3)
        collectAll [1, 2, 3] = .ok st ∧
      (∀ b, b ∈ st.bins ∨ b ∈ st.evicted →
        b.Weight = (b.items.map (fun i : Nat => if i = 3 then (2 : Int) else 3)).sum) ∧
      st.yielded = st.evicted.map Bin.items :=
  have hno : NoOverflow wrapInt64 (fun i : Nat => if i = 3 then (2 : Int) else 3) [1, 2, 3] :=
    noOverflow_wrapInt64 _ _ (by decide) (by decide)
  ⟨hno, (Bin_weight_is_sum_of_items ⟨5, 2, false⟩ wrapInt64 [1, 2, 3] _ hno).2.2.2 collectAll⟩

/-! ## A consumer that stops at the first bin -/

/-- The item loop continues with the next item when the body asked to continue. -/
theorem packItems_cons_continue {T : Type} (s : SlicePacker) (wrap : Int → Int)
    (weightFunc : T → Int) (cont : List (List T) → Bool) (x : T) (rest : List T)
    (st st1 : PackState T) (h : packItem s wrap weightFunc cont x st = .ok (st1, true)) :
    packItems s wrap weightFunc cont (x :: rest) st
      = packItems s wrap weightFunc cont rest st1 := by
  simp only [packItems, h]

/-- The item loop returns when the body returned. -/
theorem packItems_cons_stop {T : Type} (s : SlicePacker) (wrap : Int → Int)
    (weightFunc : T → Int) (cont : List (List T) → Bool) (x : T) (rest : List T)
    (st st1 : PackState T) (h : packItem s wrap weightFunc cont x st = .ok (st1, false)) :
    packItems s wrap weightFunc cont (x :: rest) st = .ok (st1, false) := by
  simp only [packItems, h]

/-- Against a consumer that stops at the first bin, the item loop either consumes all the
items without an eviction, or returns at the first eviction: right after the item for which
a bin had to be opened, with one bin handed out, whatever follows that item in the input. -/
theorem packItems_first_stop {T : Type} (s : SlicePacker) (wrap : Int → Int)
    (weightFunc : T → Int) (cont : List (List T) → Bool) (hstop : ∀ y, cont [y] = false) :
    ∀ (items : List T) (st : PackState T), st.yielded = [] →
      (∃ st', packItems s wrap weightFunc cont items st = .ok (st', true) ∧
        st'.yielded = [] ∧ st'.weighed = st.weighed ++ items) ∨
      (∃ done x later st0 st', items = done ++ x :: later ∧
        packItems s wrap weightFunc cont done st = .ok (st0, true) ∧ st0.yielded = [] ∧
        (∀ e ∈ st0.bins, e.CanAdd wrap (weightFunc x) = false) ∧
        packItem s wrap weightFunc cont x st0 = .ok (st', false) ∧
        st'.yielded.length = 1 ∧ st'.weighed = st.weighed ++ (done ++ [x]) ∧
        ∀ later', packItems s wrap weightFunc cont (done ++ x :: later') st
          = .ok (st', false)) := by
  intro items
  induction items with
  | nil =>
    intro st hy
    exact Or.inl ⟨st, rfl, hy, by simp⟩
  | cons x rest ih =>
    intro st hy
    have key : ∀ st1 : PackState T,
        packItem s wrap weightFunc cont x st = .ok (st1, true) → st1.yielded = [] →
        st1.weighed = st.weighed ++ [x] →
        (∃ st', packItems s wrap weightFunc cont (x :: rest) st = .ok (st', true) ∧
          st'.yielded = [] ∧ st'.weighed = st.weighed ++ (x :: rest)) ∨
        (∃ done y later st0 st', x :: rest = done ++ y :: later ∧
          packItems s wrap weightFunc cont done st = .ok (st0, true) ∧ st0.yielded = [] ∧
          (∀ e ∈ st0.bins, e.CanAdd wrap (weightFunc y) = false) ∧
          packItem s wrap weightFunc cont y st0 = .ok (st', false) ∧
          st'.yielded.length = 1 ∧ st'.weighed = st.weighed ++ (done ++ [y]) ∧
          ∀ later', packItems s wrap weightFunc cont (done ++ y :: later') st
            = .ok (st', false)) := by
      intro st1 h1 hy1 hw1
      rcases ih st1 hy1 with ⟨st', h, hy', hw'⟩ |
        ⟨done, y, later, st0, st', hsplit, hdone, hy0, hnone, hitem, hlen, hw', hdet⟩
      · refine Or.inl ⟨st', ?_, hy', ?_⟩
        · rw [packItems_cons_continue s wrap weightFunc cont x rest st st1 h1]
          exact h
        · rw [hw', hw1]; simp
      · refine Or.inr ⟨x :: done, y, later, st0, st', by simp [hsplit], ?_, hy0, hnone,
          hitem, hlen, ?_, ?_⟩
        · rw [packItems_cons_continue s wrap weightFunc cont x done st st1 h1]
          exact hdone
        · rw [hw', hw1]; simp
        · intro later'
          rw [List.cons_append,
            packItems_cons_continue s wrap weightFunc cont x _ st st1 h1]
          exact hdet later'
    rcases packItem_cases s wrap weightFunc cont x st with
      ⟨pre, b, post, _, _, _, h1⟩ | ⟨_, _, h1⟩ | ⟨hnone, _, pre, b, post, _, _, h1⟩
    · exact key _ h1 hy rfl
    · exact key _ h1 hy rfl
    · rw [hy, List.nil_append, hstop] at h1
      refine Or.inr ⟨[], x, rest, st, _, rfl, rfl, hy, hnone, h1, ?_, ?_, ?_⟩
      · simp
      · simp
      · intro later'
        exact packItems_cons_stop s wrap weightFunc cont x later' st _ h1

/-- Against a consumer that stops at the first bin, the drain loop hands out at most one
bin and applies `weightFunc` to nothing. -/
theorem drainBins_first_stop {T : Type} (s : SlicePacker) (cont : List (List T) → Bool)
    (hstop : ∀ y, cont [y] = false) (st : PackState T) (hy : st.yielded = []) :
    ∃ st' flag, drainBins s cont st.bins.length st = .ok (st', flag) ∧
      st'.yielded.length ≤ 1 ∧ st'.weighed = st.weighed := by
  by_cases hnil : st.bins = []
  · refine ⟨st, true, ?_, by simp [hy], rfl⟩
    rw [hnil]
    simp [drainBins, hnil]
  · obtain ⟨pre, b, post, hsplit, _, _, hev⟩ := evict_split s cont st hnil
    have hpos : st.bins.length > 0 := List.length_pos.mpr hnil
    obtain ⟨n, hn⟩ : ∃ n, st.bins.length = n + 1 := ⟨st.bins.length - 1, by omega⟩
    rw [hy, List.nil_append, hstop] at hev
    refine ⟨{ bins := pre ++ post, yielded := [b.items],
              sizes := st.sizes ++ [(pre ++ post).length], weighed := st.weighed,
              evicted := st.evicted ++ [b] }, false, ?_, ?_, ?_⟩
    · rw [hn]
      simp only [drainBins, hpos, if_true, hev]
    · simp
    · rfl

/-- C16. Against a consumer whose `yield` answers stop on the first bin it receives, the
generator returns, having handed out at most one bin.  Either that bin was evicted in the
item loop: then the generator returned in the state reached right after that eviction, the
items `weightFunc` was applied to are the input up to and including the item for which a bin
had to be opened, and the run is the same whatever follows that item in the input.  Or no
eviction took place in the item loop: then all the input was read and the drain loop handed
out at most one bin. -/
theorem generator_stops_at_first_bin {T : Type} (s : SlicePacker) (wrap : Int → Int)
    (weightFunc : T → Int) (cont : List (List T) → Bool) (items : List T)
    (hstop : ∀ y, cont [y] = false) :
    ∃ st, packSeq s wrap weightFunc cont items = .ok st ∧ st.yielded.length ≤ 1 ∧
      ((∃ done x later st0, items = done ++ x :: later ∧
          packItems s wrap weightFunc cont done PackState.init = .ok (st0, true) ∧
          st0.yielded = [] ∧
          (∀ e ∈ st0.bins, e.CanAdd wrap (weightFunc x) = false) ∧
          packItem s wrap weightFunc cont x st0 = .ok (st, false) ∧
          st.yielded.length = 1 ∧ st.weighed = done ++ [x] ∧
          ∀ later', packSeq s wrap weightFunc cont (done ++ x :: later') = .ok st) ∨
       (∃ st0, packItems s wrap weightFunc cont items PackState.init = .ok (st0, true) ∧
          st0.yielded = [] ∧ st.weighed = items)) := by
  rcases packItems_first_stop s wrap weightFunc cont hstop items PackState.init rfl with
    ⟨st1, h1, hy1, hw1⟩ |
    ⟨done, x, later, st0, st', hsplit, hdone, hy0, hnone, hitem, hlen, hw', hdet⟩
  · obtain ⟨st2, flag2, h2, hlen2, hw2⟩ := drainBins_first_stop s cont hstop st1 hy1
    refine ⟨st2, by simp only [packSeq, h1, h2], hlen2, Or.inr ⟨st1, h1, hy1, ?_⟩⟩
    rw [hw2, hw1]
    simp [PackState.init]
  · have hseq : ∀ later', packSeq s wrap weightFunc cont (done ++ x :: later') = .ok st' := by
      intro later'
      simp only [packSeq, hdet later']
    refine ⟨st', by rw [hsplit]; exact hseq later, by omega,
      Or.inl ⟨done, x, later, st0, hsplit, hdone, hy0, hnone, hitem, hlen, ?_, hseq⟩⟩
    rw [hw']
    simp [PackState.init]

/-- C16, at an input: four items of weight `3` with `TargetWeight = 5`, `Lookback = 1`, FIFO,
against the consumer that always answers stop: the bin of the first item is handed out when
the second item opens a bin, and the items `3` and `4` are never weighed. -/
theorem generator_stops_at_first_bin_witness :
    (∀ y : List Nat, (fun _ : List (List Nat) => false) [y] = false) ∧
    (∃ st, packSeq ⟨5, 1, false⟩ wrapInt64 (fun _ : Nat => (3 : Int)) (fun _ => false)
        [1, 2, 3, 4] = .ok st ∧ st.yielded.length ≤ 1) ∧
    (packSeq ⟨5, 1, false⟩ wrapInt64 (fun _ : Nat => (3 : Int)) (fun _ => false)
        [1, 2, 3, 4]).map (fun st => (st.yielded, st.weighed)) = .ok ([[1]], [1, 2]) :=
  ⟨fun _ => rfl,
    (generator_stops_at_first_bin ⟨5, 1, false⟩ wrapInt64 (fun _ : Nat => (3 : Int))
      (fun _ => false) [1, 2, 3, 4] (fun _ => rfl)).imp (fun _ h => ⟨h.1, h.2.1⟩),
    rfl⟩

end internal
